import Mathlib

/-!
Shallow embedding of the `itreap` crate (src/node.rs, src/treap.rs): an indexed
treap storing blocks of elements in its leaves.  Rust `usize`/`u64` values are
modelled as `Nat`; panics and process aborts are modelled with `Except`/`Option`
results; the random number generator is modelled as an explicit priority source
passed to the operations that draw from it.
-/

/-- Constant `BLOCK_SIZE` from src/node.rs. -/
def BLOCK_SIZE : Nat := 1000

/-- Child index `LEFT` from src/node.rs. -/
def LEFT : Nat := 0

/-- Child index `RIGHT` from src/node.rs. -/
def RIGHT : Nat := 1

/-- Type `Priority = u64` from src/node.rs, modelled as `Nat`. -/
abbrev Priority := Nat

/-- The value `std::u64::MAX`, the sentinel priority reported for leaves. -/
def u64MAX : Priority := 2 ^ 64 - 1

/-- Type `Node<C>` from src/node.rs: a leaf block, or an inner node carrying a
priority, a cached subtree size and two boxed children (left, right). -/
inductive Node (C : Type) where
  | Leaf : List C → Node C
  | Inner : Priority → Nat → Node C → Node C → Node C
deriving DecidableEq

namespace Node

variable {C : Type}

/-- Method `Node::len` from src/node.rs: block length for a leaf, the cached
size for an inner node. -/
def len : Node C → Nat
  | .Leaf block => block.length
  | .Inner _ size _ _ => size

theorem len_leaf (b : List C) : (Node.Leaf b : Node C).len = b.length := rfl

theorem len_inner (p : Priority) (s : Nat) (l r : Node C) :
    (Node.Inner p s l r : Node C).len = s := rfl

/-- Method `Node::priority` from src/node.rs: inner nodes report their stored
priority, leaves report the sentinel `u64::MAX`. -/
def priority : Node C → Priority
  | .Leaf _ => u64MAX
  | .Inner p _ _ _ => p

/-- Method `Node::is_leaf` from src/node.rs. -/
def is_leaf : Node C → Bool
  | .Leaf _ => true
  | .Inner _ _ _ _ => false

/-- Number of tree nodes (used only as a termination measure). -/
def count : Node C → Nat
  | .Leaf _ => 1
  | .Inner _ _ l r => 1 + l.count + r.count

/-- Number of inner nodes of a tree. -/
def innerCount : Node C → Nat
  | .Leaf _ => 0
  | .Inner _ _ l r => 1 + l.innerCount + r.innerCount

/-- Number of leaves of a tree. -/
def leafCount : Node C → Nat
  | .Leaf _ => 1
  | .Inner _ _ l r => l.leafCount + r.leafCount

/-- In-order concatenation of all leaf blocks: the logical sequence stored in
the subtree. -/
def toList : Node C → List C
  | .Leaf block => block
  | .Inner _ _ l r => l.toList ++ r.toList

/-- The size invariant of the spec (section 3, invariant 1): every cached inner
size equals the sum of the two children's lengths, recursively. -/
def sizeValid : Node C → Bool
  | .Leaf _ => true
  | .Inner _ size l r => (size == l.len + r.len) && l.sizeValid && r.sizeValid

/-- Every inner priority in the subtree is at most `bound`, and inner children
of inner nodes never exceed their parent's priority. -/
def heapBelow (bound : Priority) : Node C → Bool
  | .Leaf _ => true
  | .Inner p _ l r => (p ≤ bound : Bool) && heapBelow p l && heapBelow p r

/-- The heap invariant of the spec (section 3, invariant 3): every inner node
whose parent is an inner node has a priority at most its parent's. -/
def heapValidN : Node C → Bool
  | .Leaf _ => true
  | .Inner p _ l r => heapBelow p l && heapBelow p r

/-- Every leaf strictly inside the subtree (the subtree root excluded when it
is itself a leaf) holds at least one element. -/
def subLeavesNE : Node C → Bool
  | .Leaf block => 0 < block.length
  | .Inner _ _ l r => subLeavesNE l && subLeavesNE r

/-- Every leaf strictly below the root holds at least one element. -/
def strictLeavesNE : Node C → Bool
  | .Leaf _ => true
  | .Inner _ _ l r => subLeavesNE l && subLeavesNE r

/-- Method `Node::is_valid` from src/node.rs: an inner node checks its priority
against its father (when it has one) and recurses; any other node (a leaf) is
valid iff it is nonempty or has no father. -/
def is_valid : Node C → Option (Node C) → Bool
  | .Inner p s l r, father =>
      (match father with
       | some f => ((Node.Inner p s l r : Node C).priority ≤ f.priority : Bool)
       | none => true)
      && (l.is_valid (some (.Inner p s l r)) && r.is_valid (some (.Inner p s l r)))
  | .Leaf block, father => (0 < block.length : Bool) || father.isNone

/-- Method `Node::get` from src/node.rs: positional lookup, descending left
when the left child's size is `≥ index`, otherwise right with the index
decremented by the left size.  `none` models `Option::None`. -/
def get : Node C → Nat → Option C
  | .Leaf block, index => block[index]?
  | .Inner _ _ l r, index =>
      let left_size := l.len
      if left_size ≥ index then l.get index else r.get (index - left_size)

/-- Method `Node::extract_content` from src/node.rs: `none` models the
`panic!("extracting children from a leaf")`; for `direction == RIGHT` the two
children are swapped before being returned. -/
def extractContent : Node C → Nat → Option (Priority × Node C × Node C)
  | .Leaf _, _ => none
  | .Inner p _ l r, direction =>
      some (p, if direction = RIGHT then (r, l) else (l, r))

/-- Method `Node::rotate` from src/node.rs.  `none` models a panic inside the
`replace_with_or_abort` closure (extracting from a leaf, or the
`assert!(self_priority <= n2_priority)` failing), which aborts the process. -/
def rotateE (n : Node C) (direction : Nat) : Option (Node C) := do
  let (self_priority, n1, n2) ← n.extractContent direction
  let (n2_priority, n3, n4) ← n2.extractContent direction
  if self_priority ≤ n2_priority then
    let new_self_size := n1.len + n3.len
    let new_self : Node C := .Inner self_priority new_self_size n1 n3
    some (.Inner n2_priority (new_self_size + n4.len) new_self n4)
  else none

/-- The `Node::divide` split from src/node.rs: a full leaf block is split in
two halves under a fresh inner node with the drawn priority `p` and cached
size equal to the pre-split length. -/
def divide (block : List C) (p : Priority) : Node C :=
  .Inner p block.length (.Leaf (block.take (block.length / 2)))
    (.Leaf (block.drop (block.length / 2)))

/-- Method `Node::insert` from src/node.rs, with the random draw for a
potential split passed explicitly as `p` (a single insertion performs at most
one `divide`, hence at most one `random()` call).  `Except.error s` models a
panic (an out-of-bounds `Vec::insert`, which unwinds leaving the partially
updated tree `s`, or a panic inside `rotate`, which aborts the process); the
first case of the source (`self.is_leaf() && self.len() == BLOCK_SIZE`)
performs `divide` and then falls through to the `Inner` arm of the match,
whose recursive insert lands in one of the two fresh half-blocks, which is a
leaf strictly smaller than `BLOCK_SIZE` and therefore still reports the
sentinel priority `u64MAX` when the rotation condition is evaluated; that
unrolled step is written out here. -/
def insertE : Node C → Nat → C → Priority → Except (Node C) (Node C)
  | .Leaf block, index, v, p =>
    if block.length = BLOCK_SIZE then
      match divide block p with
      | .Leaf _ => .error (.Leaf block)
      | .Inner q size l r =>
        let size' := size + 1
        let ls := l.len
        if ls ≥ index then
          match l with
          | .Leaf lb =>
            if index ≤ lb.length then
              let l' : Node C := .Leaf (lb.insertIdx index v)
              if u64MAX > q then .error (.Inner q size' l' r)
              else .ok (.Inner q size' l' r)
            else .error (.Inner q size' (.Leaf lb) r)
          | .Inner a b c d => .error (.Inner q size' (.Inner a b c d) r)
        else
          let rem := index - ls
          match r with
          | .Leaf rb =>
            if rem ≤ rb.length then
              let r' : Node C := .Leaf (rb.insertIdx rem v)
              if u64MAX > q then .error (.Inner q size' l r')
              else .ok (.Inner q size' l r')
            else .error (.Inner q size' l (.Leaf rb))
          | .Inner a b c d => .error (.Inner q size' l (.Inner a b c d))
    else
      if index ≤ block.length then .ok (.Leaf (block.insertIdx index v))
      else .error (.Leaf block)
  | .Inner q size l r, index, v, p =>
    let size' := size + 1
    let ls := l.len
    if ls ≥ index then
      match l.insertE index v p with
      | .error l' => .error (.Inner q size' l' r)
      | .ok l' =>
        if l'.priority > q then
          match (Node.Inner q size' l' r : Node C).rotateE RIGHT with
          | some n' => .ok n'
          | none => .error (.Inner q size' l' r)
        else .ok (.Inner q size' l' r)
    else
      let rem := index - ls
      match r.insertE rem v p with
      | .error r' => .error (.Inner q size' l r')
      | .ok r' =>
        if r'.priority > q then
          match (Node.Inner q size' l r' : Node C).rotateE LEFT with
          | some n' => .ok n'
          | none => .error (.Inner q size' l r')
        else .ok (.Inner q size' l r')

end Node

/-- Function `intersect_ranges` from src/treap.rs, on `(start, end)` pairs. -/
def interR (r1 r2 : Nat × Nat) : Nat × Nat := (max r1.1 r2.1, min r1.2 r2.2)

/-- `Range::is_empty`: a range is empty when its start is not below its end. -/
def remptyR (r : Nat × Nat) : Bool := r.2 ≤ r.1

/-- Total node count of a work stack (termination measure only). -/
def stackCount {C : Type} (st : List (Node C × Nat × Nat)) : Nat :=
  (st.map (fun e => e.1.count)).sum

/-- The `from_fn` loop of `ITreap::between` (src/treap.rs): pop the most
recently pushed `(node, range)` pair; an inner node pushes whichever children
spans still intersect the selection (right before left, so left is popped
first); a leaf yields the sub-slice of its block meeting the selection.
`none` models a panic (an underflowing `usize` subtraction or an
out-of-bounds block slice). -/
def betweenLoop {C : Type} :
    List (Node C × Nat × Nat) → Nat × Nat → Option (List C)
  | [], _ => some []
  | (Node.Inner _ _ l r, rg) :: rest, selection =>
      if remptyR (interR (rg.1, rg.1 + l.len) selection) then
        if remptyR (interR (rg.1 + l.len, rg.2) selection) then
          betweenLoop rest selection
        else betweenLoop ((r, (rg.1 + l.len, rg.2)) :: rest) selection
      else
        if remptyR (interR (rg.1 + l.len, rg.2) selection) then
          betweenLoop ((l, (rg.1, rg.1 + l.len)) :: rest) selection
        else
          betweenLoop ((l, (rg.1, rg.1 + l.len)) :: (r, (rg.1 + l.len, rg.2)) :: rest)
            selection
  | (Node.Leaf block, rg) :: rest, selection =>
      let selected := interR rg selection
      let s := selected.1 - rg.1
      let e := selected.2 - rg.1
      if rg.1 ≤ selected.2 ∧ s ≤ e ∧ e ≤ block.length then
        ((block.drop s).take (e - s) ++ ·) <$> betweenLoop rest selection
      else none
termination_by st _ => stackCount st
decreasing_by
  all_goals
    simp only [stackCount, List.map_cons, List.sum_cons, Node.count]
  all_goals omega

/-- Method `ITreap::between` from src/treap.rs, returning the full list of
elements the lazy iterator yields (`none` models a panic while iterating).
The seed stack holds the root with its span `0..len` when that span meets the
selection, mirroring the source's filtered `once` iterator. -/
def Node.betweenE {C : Type} (t : Node C) (selection : Nat × Nat) :
    Option (List C) :=
  betweenLoop
    (if remptyR (interR (0, t.len) selection) then [] else [(t, (0, t.len))])
    selection

/-- Method `ITreap::iter` from src/treap.rs: `between(0..len)`. -/
def Node.iterE {C : Type} (t : Node C) : Option (List C) := t.betweenE (0, t.len)

/-- The chunking pass `iter.chunks(BLOCK_SIZE / 2)` of `from_iter`
(src/treap.rs): split the input sequence into consecutive runs of
`BLOCK_SIZE / 2` elements. -/
def chunkHalf {C : Type} : List C → List (List C)
  | [] => []
  | x :: xs =>
      ((x :: xs).take (BLOCK_SIZE / 2)) :: chunkHalf ((x :: xs).drop (BLOCK_SIZE / 2))
termination_by l => l.length
decreasing_by simp [BLOCK_SIZE]; omega

/-- The merge loop of `from_iter` (src/treap.rs): while the two topmost stack
nodes have equal length, replace them by an inner node with placeholder
priority 0 and size the sum.  The stack is represented topmost-first, so the
top `a` is the right node and `b` below it the left node. -/
def mergeLoop {C : Type} : List (Node C) → List (Node C)
  | [] => []
  | [a] => [a]
  | a :: b :: rest =>
      if a.len = b.len then mergeLoop (Node.Inner 0 (b.len + a.len) b a :: rest)
      else a :: b :: rest
termination_by st => st.length

/-- The chunk-accumulation fold of `from_iter` (src/treap.rs): push each chunk
as a leaf, run the merge loop, and count the leaves. -/
def buildStack {C : Type} (chunks : List (List C)) : List (Node C) × Nat :=
  chunks.foldl (fun acc chunk => (mergeLoop (Node.Leaf chunk :: acc.1), acc.2 + 1))
    ([], 0)

/-- The final fold of `from_iter` (src/treap.rs): pop the stack right to left,
repeatedly combining the popped left node with the accumulated right node;
`none` corresponds to the empty stack (the `Default::default()` branch). -/
def foldStack {C : Type} : List (Node C) → Option (Node C)
  | [] => none
  | t :: rest =>
      some (rest.foldl (fun right left => Node.Inner 0 (left.len + right.len) left right) t)

/-- `Vec::pop` on the priority vector: remove and return the last element. -/
def popLast : List Priority → Option (Priority × List Priority)
  | [] => none
  | [p] => some (p, [])
  | q :: r :: rest => (popLast (r :: rest)).map (fun pr => (pr.1, q :: pr.2))

/-- The children a node contributes to the breadth-first queue. -/
def childrenOf {C : Type} : Node C → List (Node C)
  | .Leaf _ => []
  | .Inner _ _ l r => [l, r]

/-- One queue level of `for_each_node_breadth_first` running the priority
closure of `from_iter` (src/treap.rs): visiting left to right, every inner
node takes the last (largest remaining) priority of the sorted vector; `none`
models the `unwrap` panic when the vector is exhausted. -/
def assignRoots {C : Type} :
    List (Node C) → List Priority → Option (List (Node C) × List Priority)
  | [], ps => some ([], ps)
  | .Leaf b :: rest, ps =>
      (assignRoots rest ps).map (fun x => (Node.Leaf b :: x.1, x.2))
  | .Inner _ s l r :: rest, ps =>
      match popLast ps with
      | none => none
      | some (p, ps') =>
          (assignRoots rest ps').map (fun x => (Node.Inner p s l r :: x.1, x.2))

/-- Reattach the rebuilt next-level children to their assigned parents, in
order (each inner parent consumes the next two children). -/
def reattach {C : Type} : List (Node C) → List (Node C) → List (Node C)
  | [], _ => []
  | .Leaf b :: rest, kids => .Leaf b :: reattach rest kids
  | .Inner p s _ _ :: rest, k1 :: k2 :: kids => .Inner p s k1 k2 :: reattach rest kids
  | .Inner p s l r :: rest, [] => .Inner p s l r :: reattach rest []
  | .Inner p s l r :: rest, [k] => .Inner p s l r :: reattach rest [k]

/-- Total node count of a forest (termination measure for the queue). -/
def forestCount {C : Type} (f : List (Node C)) : Nat := (f.map Node.count).sum

theorem forestCount_childrenOf {C : Type} (t : Node C) :
    forestCount (childrenOf t) + 1 = t.count := by
  cases t
  all_goals simp [forestCount, childrenOf, Node.count]
  omega

theorem forestCount_flatMap {C : Type} (f : List (Node C)) :
    forestCount (f.flatMap childrenOf) + f.length = forestCount f := by
  induction f with
  | nil => simp [forestCount]
  | cons t rest ih =>
      have h := forestCount_childrenOf t
      simp only [List.flatMap_cons, forestCount, List.map_append, List.sum_append,
        List.map_cons, List.sum_cons, List.length_cons] at *
      omega

/-- `for_each_node_breadth_first` from src/treap.rs specialised to the
priority-assignment closure of `from_iter`, rendered level by level: the FIFO
queue visits all current roots left to right, then all their children, and so
on, which is exactly the order in which `VecDeque` pops them; the rebuilt
forest is returned together with the remaining priorities. -/
def bfsAssign {C : Type} :
    List (Node C) → List Priority → Option (List (Node C) × List Priority)
  | [], ps => some ([], ps)
  | t :: rest, ps =>
      match assignRoots (t :: rest) ps with
      | none => none
      | some (roots, ps1) =>
          match bfsAssign ((t :: rest).flatMap childrenOf) ps1 with
          | none => none
          | some (kids, ps2) => some (reattach roots kids, ps2)
termination_by f _ => forestCount f
decreasing_by
  have h := forestCount_flatMap (t :: rest)
  simp only [List.length_cons] at h
  omega

/-- `FromIterator::from_iter` for `ITreap` from src/treap.rs, the `leaves - 1`
random draws being `gen 0, gen 1, ...`; `sort_unstable` is modelled by an
ascending insertion sort; the `debug_assert!` is a release no-op and is not
modelled (validity is proved separately).  `none` models a panic. -/
def fromIterE {C : Type} (s : List C) (gen : Nat → Priority) : Option (Node C) :=
  let built := buildStack (chunkHalf s)
  match foldStack built.1 with
  | none => some (.Leaf [])
  | some root =>
      let priorities :=
        List.insertionSort (· ≤ ·) ((List.range (built.2 - 1)).map gen)
      match bfsAssign [root] priorities with
      | some ([root'], _) => some root'
      | _ => none

/-- Method `ITreap::push` from src/treap.rs: `insert(len(), v)`. -/
def Node.pushE {C : Type} (t : Node C) (v : C) (p : Priority) :
    Except (Node C) (Node C) :=
  t.insertE t.len v p

/-- Run a sequence of `push` calls, the insertion numbered `k` drawing the
priority `gen k`, stopping at the first panic. -/
def pushSeqE {C : Type} :
    Node C → List C → (Nat → Priority) → Nat → Except (Node C) (Node C)
  | t, [], _, _ => .ok t
  | t, v :: rest, gen, k =>
      match t.pushE v (gen k) with
      | .ok t' => pushSeqE t' rest gen (k + 1)
      | .error e => .error e

/-- Run a sequence of positional `insert(index, value)` calls, stopping at the
first panic. -/
def runOpsE {C : Type} :
    Node C → List (Nat × C) → (Nat → Priority) → Nat → Except (Node C) (Node C)
  | t, [], _, _ => .ok t
  | t, (i, v) :: rest, gen, k =>
      match t.insertE i v (gen k) with
      | .ok t' => runOpsE t' rest gen (k + 1)
      | .error e => .error e

/-- Reference list-insert semantics: `insert(i, v)` puts `v` at position `i`
when `i ≤ len`, every element previously at a position `≥ i` shifting one to
the right; `none` when a precondition is violated. -/
def applyOps {C : Type} : List (Nat × C) → List C → Option (List C)
  | [], l => some l
  | (i, v) :: rest, l =>
      if i ≤ l.length then applyOps rest (l.insertIdx i v) else none

/-- The `(index, value)` pairs performed by successive `push` calls of `vals`
onto a sequence currently holding `n` elements. -/
def pushOpsFrom {C : Type} (n : Nat) : List C → List (Nat × C)
  | [] => []
  | v :: vs => (n, v) :: pushOpsFrom (n + 1) vs

example : (Node.Leaf ([] : List Nat)).insertE 0 7 3 = .ok (.Leaf [7]) := rfl

example :
    (Node.Inner 5 2 (.Leaf [10]) (.Leaf [20]) : Node Nat).get 1 = none := by
  decide

/-! Basic facts about sizes and the single-leaf insertion regime. -/

theorem Node.sizeValid_inner {C : Type} {p : Priority} {s : Nat} {l r : Node C} :
    (Node.Inner p s l r).sizeValid = true ↔
      s = l.len + r.len ∧ l.sizeValid = true ∧ r.sizeValid = true := by
  simp [Node.sizeValid, Bool.and_assoc, and_assoc]

theorem Node.toList_length {C : Type} (t : Node C) (h : t.sizeValid = true) :
    t.toList.length = t.len := by
  induction t with
  | Leaf b => simp [Node.toList, Node.len]
  | Inner p s l r ihl ihr =>
      rw [Node.sizeValid_inner] at h
      simp [Node.toList, Node.len, ihl h.2.1, ihr h.2.2, h.1]

theorem Node.insertE_leaf_small {C : Type} {l : List C} {i : Nat} (v : C)
    (p : Priority) (hlen : l.length < BLOCK_SIZE) (hi : i ≤ l.length) :
    (Node.Leaf l).insertE i v p = .ok (.Leaf (l.insertIdx i v)) := by
  simp [Node.insertE, Nat.ne_of_lt hlen, hi]

theorem Node.insertE_leaf_oob {C : Type} {l : List C} {i : Nat} (v : C)
    (p : Priority) (hlen : l.length ≠ BLOCK_SIZE) (hi : l.length < i) :
    (Node.Leaf l).insertE i v p = .error (.Leaf l) := by
  simp [Node.insertE, hlen, Nat.not_le_of_lt hi]

theorem Node.insertE_leaf_full {C : Type} {l : List C} (i : Nat) (v : C)
    {p : Priority} (hlen : l.length = BLOCK_SIZE) (hp : p < u64MAX) :
    ∃ e, (Node.Leaf l).insertE i v p = .error e := by
  have hp' : u64MAX > p := hp
  simp only [Node.insertE, hlen, ↓reduceIte, Node.divide, hp']
  split
  · split
    · exact ⟨_, rfl⟩
    · exact ⟨_, rfl⟩
  · split
    · exact ⟨_, rfl⟩
    · exact ⟨_, rfl⟩

theorem pushSeqE_append {C : Type} (xs ys : List C) (t : Node C)
    (gen : Nat → Priority) (k : Nat) :
    pushSeqE t (xs ++ ys) gen k =
      match pushSeqE t xs gen k with
      | .ok t' => pushSeqE t' ys gen (k + xs.length)
      | .error e => .error e := by
  induction xs generalizing t k with
  | nil => simp [pushSeqE]
  | cons x rest ih =>
      simp only [List.cons_append, pushSeqE]
      cases h : t.pushE x (gen k) with
      | ok t' =>
          show pushSeqE t' (rest ++ ys) gen (k + 1) =
            match pushSeqE t' rest gen (k + 1) with
            | Except.ok t'' => pushSeqE t'' ys gen (k + (x :: rest).length)
            | Except.error e => Except.error e
          rw [ih t' (k + 1)]
          have e : k + 1 + rest.length = k + (x :: rest).length := by
            simp only [List.length_cons]; omega
          rw [e]
      | error e => rfl

theorem pushSeqE_leaf {C : Type} (xs : List C) :
    ∀ (l : List C) (gen : Nat → Priority) (k : Nat),
      l.length + xs.length ≤ BLOCK_SIZE →
      pushSeqE (Node.Leaf l) xs gen k = .ok (.Leaf (l ++ xs)) := by
  induction xs with
  | nil => intro l gen k _; simp [pushSeqE]
  | cons x rest ih =>
      intro l gen k h
      have hlen : l.length < BLOCK_SIZE := by
        simp only [List.length_cons] at h; omega
      have hstep : (Node.Leaf l).pushE x (gen k) = .ok (.Leaf (l ++ [x])) := by
        rw [Node.pushE]
        show (Node.Leaf l).insertE l.length x (gen k) = _
        rw [Node.insertE_leaf_small x (gen k) hlen (Nat.le_refl _),
          List.insertIdx_length_self]
      rw [pushSeqE, hstep]
      have h' : (l ++ [x]).length + rest.length ≤ BLOCK_SIZE := by
        simp only [List.length_append, List.length_cons, List.length_nil] at h ⊢
        omega
      show pushSeqE (Node.Leaf (l ++ [x])) rest gen (k + 1) =
        Except.ok (Node.Leaf (l ++ x :: rest))
      rw [ih (l ++ [x]) gen (k + 1) h', List.append_assoc]
      rfl

theorem pushSeqE_full_leaf_step {C : Type} {l : List C} (v : C) (vs : List C)
    (gen : Nat → Priority) (k : Nat) (hlen : l.length = BLOCK_SIZE)
    (hp : gen k < u64MAX) :
    (pushSeqE (Node.Leaf l) (v :: vs) gen k).isOk = false := by
  obtain ⟨e, he⟩ :=
    Node.insertE_leaf_full (l := l) l.length v (p := gen k) hlen hp
  rw [pushSeqE]
  have hpe : (Node.Leaf l).pushE v (gen k) = .error e := by
    rw [Node.pushE]; exact he
  rw [hpe]
  rfl

theorem pushSeqE_append_fails {C : Type} {xs : List C} (ys : List C)
    {t : Node C} {gen : Nat → Priority} {k : Nat}
    (h : (pushSeqE t xs gen k).isOk = false) :
    (pushSeqE t (xs ++ ys) gen k).isOk = false := by
  rw [pushSeqE_append]
  cases hres : pushSeqE t xs gen k with
  | ok t' => rw [hres] at h; exact absurd h (by simp [Except.isOk, Except.toBool])
  | error e => rfl

/-- Claim C1: the spec's split/insert regression case — starting from the
empty treap, `10 * BLOCK_SIZE` successive `push` calls of `0, 1, 2, ...` must
all complete and `iter()` must reproduce the pushed sequence.  The code
violates this: the `push` numbered `BLOCK_SIZE` (inserting the value
`BLOCK_SIZE`) splits the full root leaf and then, because the leaf child that
received the element still reports the sentinel priority `u64::MAX`, triggers
a rotation that tries to extract children from that leaf and panics — for
every drawn split priority except `u64::MAX` itself. -/
theorem c1_push_regression_panics (gen : Nat → Priority)
    (h : gen BLOCK_SIZE < u64MAX) :
    (pushSeqE (Node.Leaf ([] : List Nat)) (List.range (10 * BLOCK_SIZE))
      gen 0).isOk = false := by
  have hsplit : 10 * BLOCK_SIZE = (BLOCK_SIZE + 1) + (9 * BLOCK_SIZE - 1) := by
    simp [BLOCK_SIZE]
  have h1 : List.range (BLOCK_SIZE + 1) = List.range BLOCK_SIZE ++ [BLOCK_SIZE] :=
    List.range_succ BLOCK_SIZE
  rw [hsplit, List.range_add, h1]
  apply pushSeqE_append_fails
  rw [pushSeqE_append]
  have h2 : pushSeqE (Node.Leaf ([] : List Nat)) (List.range BLOCK_SIZE) gen 0 =
      .ok (.Leaf (List.range BLOCK_SIZE)) := by
    have := pushSeqE_leaf (List.range BLOCK_SIZE) [] gen 0
      (by simp [List.length_range])
    simpa using this
  rw [h2]
  show (pushSeqE (Node.Leaf (List.range BLOCK_SIZE)) [BLOCK_SIZE] gen
      (0 + (List.range BLOCK_SIZE).length)).isOk = false
  have hk : 0 + (List.range BLOCK_SIZE).length = BLOCK_SIZE := by
    simp [List.length_range]
  rw [hk]
  exact pushSeqE_full_leaf_step BLOCK_SIZE [] gen BLOCK_SIZE
    (by simp [List.length_range]) h

/-- Witness for C1 at the constant priority source 0. -/
theorem c1_push_regression_panics_witness :
    (fun _ => 0 : Nat → Priority) BLOCK_SIZE < u64MAX ∧
      (pushSeqE (Node.Leaf ([] : List Nat)) (List.range (10 * BLOCK_SIZE))
        (fun _ => 0) 0).isOk = false :=
  ⟨by decide, c1_push_regression_panics (fun _ => 0) (by decide)⟩

theorem pushOpsFrom_append {C : Type} (xs ys : List C) :
    ∀ n, pushOpsFrom n (xs ++ ys) =
      pushOpsFrom n xs ++ pushOpsFrom (n + xs.length) ys := by
  induction xs with
  | nil => intro n; simp [pushOpsFrom]
  | cons x rest ih =>
      intro n
      simp only [List.cons_append, pushOpsFrom, List.length_cons]
      show (n, x) :: pushOpsFrom (n + 1) (rest ++ ys) =
        (n, x) :: (pushOpsFrom (n + 1) rest ++ pushOpsFrom (n + (rest.length + 1)) ys)
      rw [ih (n + 1)]
      have e : n + 1 + rest.length = n + (rest.length + 1) := by omega
      rw [e]

theorem applyOps_pushOps {C : Type} (vs : List C) :
    ∀ l : List C, applyOps (pushOpsFrom l.length vs) l = some (l ++ vs) := by
  induction vs with
  | nil => intro l; simp [pushOpsFrom, applyOps]
  | cons v rest ih =>
      intro l
      simp only [pushOpsFrom, applyOps, le_refl, if_pos,
        List.insertIdx_length_self]
      have h1 : l.length + 1 = (l ++ [v]).length := by simp
      rw [h1, ih (l ++ [v]), List.append_assoc]
      rfl

theorem runOpsE_append {C : Type} (ops1 ops2 : List (Nat × C)) (t : Node C)
    (gen : Nat → Priority) (k : Nat) :
    runOpsE t (ops1 ++ ops2) gen k =
      match runOpsE t ops1 gen k with
      | .ok t' => runOpsE t' ops2 gen (k + ops1.length)
      | .error e => .error e := by
  induction ops1 generalizing t k with
  | nil => simp [runOpsE]
  | cons op rest ih =>
      obtain ⟨i, v⟩ := op
      simp only [List.cons_append, runOpsE]
      cases h : t.insertE i v (gen k) with
      | ok t' =>
          show runOpsE t' (rest ++ ops2) gen (k + 1) =
            match runOpsE t' rest gen (k + 1) with
            | Except.ok t'' => runOpsE t'' ops2 gen (k + ((i, v) :: rest).length)
            | Except.error e => Except.error e
          rw [ih t' (k + 1)]
          have e : k + 1 + rest.length = k + ((i, v) :: rest).length := by
            simp only [List.length_cons]; omega
          rw [e]
      | error e => rfl

theorem runOpsE_pushOps_leaf {C : Type} (vs : List C) :
    ∀ (l : List C) (gen : Nat → Priority) (k : Nat),
      l.length + vs.length ≤ BLOCK_SIZE →
      runOpsE (Node.Leaf l) (pushOpsFrom l.length vs) gen k =
        .ok (.Leaf (l ++ vs)) := by
  induction vs with
  | nil => intro l gen k _; simp [pushOpsFrom, runOpsE]
  | cons v rest ih =>
      intro l gen k h
      have hlen : l.length < BLOCK_SIZE := by
        simp only [List.length_cons] at h; omega
      have hstep : (Node.Leaf l).insertE l.length v (gen k) =
          .ok (.Leaf (l ++ [v])) := by
        rw [Node.insertE_leaf_small v (gen k) hlen (Nat.le_refl _),
          List.insertIdx_length_self]
      rw [pushOpsFrom, runOpsE, hstep]
      have h1 : l.length + 1 = (l ++ [v]).length := by simp
      have h' : (l ++ [v]).length + rest.length ≤ BLOCK_SIZE := by
        simp only [List.length_append, List.length_cons, List.length_nil] at h ⊢
        omega
      show runOpsE (Node.Leaf (l ++ [v])) (pushOpsFrom (l.length + 1) rest) gen
        (k + 1) = Except.ok (Node.Leaf (l ++ v :: rest))
      rw [h1, ih (l ++ [v]) gen (k + 1) h', List.append_assoc]
      rfl

theorem runOpsE_single_fails {C : Type} {t : Node C} {i : Nat} {v : C}
    {gen : Nat → Priority} {k : Nat}
    (h : ∃ e, t.insertE i v (gen k) = .error e) :
    (runOpsE t [(i, v)] gen k).isOk = false := by
  obtain ⟨e, he⟩ := h
  rw [runOpsE, he]
  rfl

/-- Claim C3: for every precondition-respecting sequence of `insert`/`push`
calls, every call must complete and `iter()` must agree with standard
list-insert semantics.  The code violates this: the precondition-respecting
sequence of `BLOCK_SIZE + 1` successive pushes (whose reference semantics is
`0, 1, ..., BLOCK_SIZE`) panics at its last insertion, which splits the full
root leaf and then attempts to rotate a leaf child (here with every drawn
priority equal to 0). -/
theorem c3_insert_sequence_panics :
    applyOps (pushOpsFrom 0 (List.range (BLOCK_SIZE + 1))) ([] : List Nat) =
      some (List.range (BLOCK_SIZE + 1)) ∧
    (runOpsE (Node.Leaf ([] : List Nat))
      (pushOpsFrom 0 (List.range (BLOCK_SIZE + 1))) (fun _ => 0) 0).isOk =
      false := by
  constructor
  · have h := applyOps_pushOps (List.range (BLOCK_SIZE + 1)) ([] : List Nat)
    simpa using h
  · have h1 : List.range (BLOCK_SIZE + 1) =
        List.range BLOCK_SIZE ++ [BLOCK_SIZE] := List.range_succ BLOCK_SIZE
    rw [h1, pushOpsFrom_append, runOpsE_append]
    have h2 : runOpsE (Node.Leaf ([] : List Nat))
        (pushOpsFrom 0 (List.range BLOCK_SIZE)) (fun _ => 0) 0 =
        .ok (.Leaf (List.range BLOCK_SIZE)) := by
      have h := runOpsE_pushOps_leaf (List.range BLOCK_SIZE) ([] : List Nat)
        (fun _ => 0) 0 (by simp [List.length_range])
      simpa using h
    rw [h2]
    show (runOpsE (Node.Leaf (List.range BLOCK_SIZE))
        (pushOpsFrom (0 + (List.range BLOCK_SIZE).length) [BLOCK_SIZE])
        (fun _ => 0)
        (0 + (pushOpsFrom 0 (List.range BLOCK_SIZE)).length)).isOk = false
    have hlen1 : 0 + (List.range BLOCK_SIZE).length = BLOCK_SIZE := by
      simp [List.length_range]
    rw [hlen1]
    apply runOpsE_single_fails
    exact Node.insertE_leaf_full BLOCK_SIZE BLOCK_SIZE
      (by simp [List.length_range]) (by decide)

/-! The validity check: what `is_valid` actually verifies. -/

theorem Node.is_valid_some {C : Type} (t : Node C) :
    ∀ f : Node C, t.is_valid (some f) = (t.heapBelow f.priority && t.subLeavesNE) := by
  induction t with
  | Leaf b =>
      intro f
      simp [Node.is_valid, Node.heapBelow, Node.subLeavesNE, Option.isNone]
  | Inner p s l r ihl ihr =>
      intro f
      simp only [Node.is_valid, Node.heapBelow, Node.subLeavesNE, Node.priority,
        ihl, ihr]
      cases hp : (decide (p ≤ f.priority)) <;>
        simp [Bool.and_assoc, Bool.and_comm, Bool.and_left_comm]

theorem Node.is_valid_none_eq {C : Type} (t : Node C) :
    t.is_valid none = (t.heapValidN && t.strictLeavesNE) := by
  cases t with
  | Leaf b => simp [Node.is_valid, Node.heapValidN, Node.strictLeavesNE]
  | Inner p s l r =>
      simp only [Node.is_valid, Node.heapValidN, Node.strictLeavesNE,
        Node.is_valid_some, Node.priority]
      simp [Bool.and_assoc, Bool.and_comm, Bool.and_left_comm]

/-- Claim C9 (amended): `is_valid` checks the heap invariant (and that every
leaf below the root is nonempty), but performs no size check at all — it
returns `true` exactly when priorities are heap-ordered and all non-root
leaves are nonempty, regardless of the cached sizes. -/
theorem c9_is_valid_checks_heap_and_leaves {C : Type} (t : Node C) :
    t.is_valid none = true ↔
      (t.heapValidN = true ∧ t.strictLeavesNE = true) := by
  rw [Node.is_valid_none_eq]
  simp

/-- Claim C9 counterexample: a tree whose root caches size 999 over two
singleton leaves violates the size invariant, yet `is_valid` accepts it —
refuting the claim that `is_valid` returns `false` on every tree with an
inconsistent cached size. -/
theorem c9_counterexample_size_not_checked :
    Node.sizeValid (Node.Inner 5 999 (.Leaf [0]) (.Leaf [1]) : Node Nat) = false ∧
    Node.is_valid (Node.Inner 5 999 (.Leaf [0]) (.Leaf [1]) : Node Nat) none = true := by
  constructor
  · decide
  · decide

/-! Out-of-range behaviour of `get` and `insert`. -/

theorem Node.get_none_of_le {C : Type} (t : Node C) :
    ∀ i, t.sizeValid = true → t.len ≤ i → t.get i = none := by
  induction t with
  | Leaf b =>
      intro i _ h
      simp only [Node.get, Node.len] at *
      exact List.getElem?_eq_none h
  | Inner p s l r ihl ihr =>
      intro i hsv h
      rw [Node.sizeValid_inner] at hsv
      obtain ⟨hs, hl, hr⟩ := hsv
      simp only [Node.len] at h
      simp only [Node.get]
      by_cases hc : l.len ≥ i
      · rw [if_pos hc]
        exact ihl i hl (by omega)
      · rw [if_neg hc]
        exact ihr (i - l.len) hr (by omega)

theorem Node.insertE_oob {C : Type} (t : Node C) :
    ∀ (i : Nat) (v : C) (p : Priority), t.sizeValid = true → t.len < i →
      ∃ e, t.insertE i v p = .error e := by
  induction t with
  | Leaf b =>
      intro i v p _ h
      simp only [Node.len] at h
      by_cases hfull : b.length = BLOCK_SIZE
      · have hB : BLOCK_SIZE = 1000 := rfl
        have ht : (List.take (BLOCK_SIZE / 2) b).length = BLOCK_SIZE / 2 := by
          rw [List.length_take]
          omega
        have hd : (List.drop (BLOCK_SIZE / 2) b).length =
            BLOCK_SIZE - BLOCK_SIZE / 2 := by
          rw [List.length_drop, hfull]
        simp only [Node.insertE, hfull, ↓reduceIte, Node.divide]
        rw [if_neg (by simp only [Node.len, ht]; omega),
          if_neg (by simp only [Node.len, ht, hd]; omega)]
        exact ⟨_, rfl⟩
      · exact ⟨_, Node.insertE_leaf_oob v p hfull (by omega)⟩
  | Inner q s l r ihl ihr =>
      intro i v p hsv h
      rw [Node.sizeValid_inner] at hsv
      obtain ⟨hs, hl, hr⟩ := hsv
      simp only [Node.len] at h
      simp only [Node.insertE]
      rw [if_neg (show ¬ l.len ≥ i by omega)]
      obtain ⟨e, he⟩ := ihr (i - l.len) v p hr (by omega)
      rw [he]
      exact ⟨_, rfl⟩

/-! Size preservation of completed mutations. -/

theorem Node.rotateE_spec {C : Type} {q : Priority} {s' : Nat} {a b : Node C}
    {d : Nat} {n' : Node C} (hs : s' = a.len + b.len) (ha : a.sizeValid = true)
    (hb : b.sizeValid = true)
    (hrot : (Node.Inner q s' a b : Node C).rotateE d = some n') :
    n'.sizeValid = true ∧ n'.len = s' := by
  by_cases hd : d = RIGHT
  · cases a with
    | Leaf x =>
        simp [Node.rotateE, Node.extractContent, hd] at hrot
    | Inner p2 s2 c dd =>
        rw [Node.sizeValid_inner] at ha
        obtain ⟨hs2, hc, hdd⟩ := ha
        simp only [Node.len_inner] at hs
        simp only [Node.rotateE, Node.extractContent, hd, ↓reduceIte,
          Option.bind_eq_bind, Option.some_bind] at hrot
        split at hrot
        · injection hrot with h
          subst h
          refine ⟨?_, ?_⟩
          · rw [Node.sizeValid_inner]
            refine ⟨by simp [Node.len_inner], ?_, hc⟩
            rw [Node.sizeValid_inner]
            exact ⟨rfl, hb, hdd⟩
          · simp only [Node.len_inner]
            omega
        · exact Option.noConfusion hrot
  · cases b with
    | Leaf x =>
        simp [Node.rotateE, Node.extractContent, hd] at hrot
    | Inner p2 s2 c dd =>
        rw [Node.sizeValid_inner] at hb
        obtain ⟨hs2, hc, hdd⟩ := hb
        simp only [Node.len_inner] at hs
        simp only [Node.rotateE, Node.extractContent, hd, ↓reduceIte,
          Option.bind_eq_bind, Option.some_bind] at hrot
        split at hrot
        · injection hrot with h
          subst h
          refine ⟨?_, ?_⟩
          · rw [Node.sizeValid_inner]
            refine ⟨by simp [Node.len_inner], ?_, hdd⟩
            rw [Node.sizeValid_inner]
            exact ⟨rfl, ha, hc⟩
          · simp only [Node.len_inner]
            omega
        · exact Option.noConfusion hrot

theorem Node.insertE_ok_spec {C : Type} (t : Node C) :
    ∀ (i : Nat) (v : C) (p : Priority) (t' : Node C), t.sizeValid = true →
      t.insertE i v p = .ok t' →
      t'.sizeValid = true ∧ t'.len = t.len + 1 := by
  induction t with
  | Leaf b =>
      intro i v p t' _ hok
      by_cases hfull : b.length = BLOCK_SIZE
      · simp only [Node.insertE, hfull, ↓reduceIte, Node.divide, Node.len_leaf,
          Node.len_inner] at hok
        split at hok
        · split at hok
          · exact Except.noConfusion hok
          · rename_i hle hmax
            injection hok with h
            subst h
            refine ⟨?_, ?_⟩
            · rw [Node.sizeValid_inner]
              refine ⟨?_, rfl, rfl⟩
              simp only [Node.len_leaf]
              rw [List.length_insertIdx _ _ (ge_iff_le.mp hle), List.length_take,
                List.length_drop]
              omega
            · simp only [Node.len_inner, Node.len_leaf, hfull]
        · split at hok
          · split at hok
            · exact Except.noConfusion hok
            · rename_i hgt hbound hmax
              injection hok with h
              subst h
              refine ⟨?_, ?_⟩
              · rw [Node.sizeValid_inner]
                refine ⟨?_, rfl, rfl⟩
                simp only [Node.len_leaf]
                rw [List.length_insertIdx _ _ hbound, List.length_take,
                  List.length_drop]
                omega
              · simp only [Node.len_inner, Node.len_leaf, hfull]
          · exact Except.noConfusion hok
      · simp only [Node.insertE, if_neg hfull] at hok
        split at hok
        · rename_i hbound
          injection hok with h
          subst h
          refine ⟨rfl, ?_⟩
          simp only [Node.len_leaf]
          rw [List.length_insertIdx _ _ hbound]
        · exact Except.noConfusion hok
  | Inner q s l r ihl ihr =>
      intro i v p t' hsv hok
      rw [Node.sizeValid_inner] at hsv
      obtain ⟨hs, hl, hr⟩ := hsv
      simp only [Node.insertE] at hok
      split at hok
      · split at hok
        · exact Except.noConfusion hok
        · rename_i l' heq
          obtain ⟨hszl, hlenl⟩ := ihl i v p l' hl heq
          split at hok
          · split at hok
            · rename_i n' heqr
              injection hok with h
              subst h
              have hs' : s + 1 = l'.len + r.len := by omega
              have := Node.rotateE_spec hs' hszl hr heqr
              exact ⟨this.1, by rw [this.2]; rfl⟩
            · exact Except.noConfusion hok
          · injection hok with h
            subst h
            refine ⟨?_, rfl⟩
            rw [Node.sizeValid_inner]
            exact ⟨by omega, hszl, hr⟩
      · split at hok
        · exact Except.noConfusion hok
        · rename_i r' heq
          obtain ⟨hszr, hlenr⟩ := ihr (i - l.len) v p r' hr heq
          split at hok
          · split at hok
            · rename_i n' heqr
              injection hok with h
              subst h
              have hs' : s + 1 = l.len + r'.len := by omega
              have := Node.rotateE_spec hs' hl hszr heqr
              exact ⟨this.1, by rw [this.2]; rfl⟩
            · exact Except.noConfusion hok
          · injection hok with h
            subst h
            refine ⟨?_, rfl⟩
            rw [Node.sizeValid_inner]
            exact ⟨by omega, hl, hszr⟩

/-! Correctness of the range traversal. -/

/-- The sub-slice of a list whose elements occupy absolute positions
`a, a+1, ...` selected by the half-open interval `sel` (proof helper). -/
def sliceAt {C : Type} (l : List C) (a : Nat) (sel : Nat × Nat) : List C :=
  (l.take (sel.2 - a)).drop (sel.1 - a)

/-- What the traversal loop yields for one stack entry `(n, rg)` (proof
helper): nothing for a span missed by the selection, the selected sub-slice
for a leaf, the two children's yields in order for an inner node. -/
def yieldNode {C : Type} (n : Node C) (rg sel : Nat × Nat) : Option (List C) :=
  if remptyR (interR rg sel) then some []
  else
    match n with
    | .Leaf block =>
        let selected := interR rg sel
        let s := selected.1 - rg.1
        let e := selected.2 - rg.1
        if rg.1 ≤ selected.2 ∧ s ≤ e ∧ e ≤ block.length then
          some ((block.drop s).take (e - s))
        else none
    | .Inner _ _ l r => do
        let a ← yieldNode l (rg.1, rg.1 + l.len) sel
        let b ← yieldNode r (rg.1 + l.len, rg.2) sel
        some (a ++ b)

theorem betweenLoop_nil {C : Type} (sel : Nat × Nat) :
    betweenLoop ([] : List (Node C × Nat × Nat)) sel = some [] := by
  simp [betweenLoop]

theorem yieldNode_empty {C : Type} (n : Node C) (rg sel : Nat × Nat)
    (h : remptyR (interR rg sel) = true) : yieldNode n rg sel = some [] := by
  rw [yieldNode.eq_def, if_pos h]

theorem betweenLoop_cons {C : Type} (n : Node C) :
    ∀ (rg : Nat × Nat) (rest : List (Node C × Nat × Nat)) (sel : Nat × Nat),
      remptyR (interR rg sel) = false →
      betweenLoop ((n, rg) :: rest) sel =
        (yieldNode n rg sel).bind
          (fun a => (betweenLoop rest sel).map (fun b => a ++ b)) := by
  induction n with
  | Leaf b =>
      intro rg rest sel hne
      rw [betweenLoop, yieldNode.eq_def, hne]
      simp only [Bool.false_eq_true, ↓reduceIte]
      split
      · cases hrest : betweenLoop rest sel <;> simp
      · rfl
  | Inner p s l r ihl ihr =>
      intro rg rest sel hne
      rw [betweenLoop, yieldNode.eq_def, hne]
      simp only [Bool.false_eq_true, ↓reduceIte]
      by_cases hL : remptyR (interR (rg.1, rg.1 + l.len) sel) = true
      · rw [if_pos hL, yieldNode_empty l _ _ hL]
        by_cases hR : remptyR (interR (rg.1 + l.len, rg.2) sel) = true
        · rw [if_pos hR, yieldNode_empty r _ _ hR]
          cases hrest : betweenLoop rest sel <;> simp
        · rw [if_neg hR,
            ihr (rg.1 + l.len, rg.2) rest sel (Bool.not_eq_true _ ▸ hR)]
          cases hyr : yieldNode r (rg.1 + l.len, rg.2) sel <;>
            cases hrest : betweenLoop rest sel <;> simp
      · rw [if_neg hL]
        by_cases hR : remptyR (interR (rg.1 + l.len, rg.2) sel) = true
        · rw [if_pos hR,
            ihl (rg.1, rg.1 + l.len) rest sel (Bool.not_eq_true _ ▸ hL),
            yieldNode_empty r _ _ hR]
          cases hyl : yieldNode l (rg.1, rg.1 + l.len) sel <;>
            cases hrest : betweenLoop rest sel <;> simp
        · rw [if_neg hR,
            ihl (rg.1, rg.1 + l.len) ((r, (rg.1 + l.len, rg.2)) :: rest) sel
              (Bool.not_eq_true _ ▸ hL),
            ihr (rg.1 + l.len, rg.2) rest sel (Bool.not_eq_true _ ▸ hR)]
          cases hyl : yieldNode l (rg.1, rg.1 + l.len) sel <;>
            cases hyr : yieldNode r (rg.1 + l.len, rg.2) sel <;>
              cases hrest : betweenLoop rest sel <;> simp [List.append_assoc]

theorem sliceAt_append {C : Type} (x y : List C) (a : Nat) (sel : Nat × Nat) :
    sliceAt (x ++ y) a sel = sliceAt x a sel ++ sliceAt y (a + x.length) sel := by
  unfold sliceAt
  rw [List.take_append_eq_append_take, List.drop_append_eq_append_drop]
  have h2 : (List.drop (sel.1 - a - (List.take (sel.2 - a) x).length)
        (List.take (sel.2 - a - x.length) y)) =
      (List.drop (sel.1 - (a + x.length)) (List.take (sel.2 - (a + x.length)) y)) := by
    by_cases hc : x.length ≤ sel.2 - a
    · have h1 : (List.take (sel.2 - a) x).length = x.length := by
        rw [List.length_take]; omega
      rw [h1, Nat.sub_sub, Nat.sub_sub]
    · have h0 : sel.2 - (a + x.length) = 0 := by omega
      have h0' : sel.2 - a - x.length = 0 := by omega
      rw [h0, h0', List.take_zero, List.drop_nil, List.drop_nil]
  rw [h2]

theorem sliceAt_empty {C : Type} (l : List C) (a : Nat) (sel : Nat × Nat)
    (h : remptyR (interR (a, a + l.length) sel) = true) :
    sliceAt l a sel = [] := by
  unfold sliceAt
  simp only [remptyR, interR, decide_eq_true_eq] at h
  apply List.drop_eq_nil_of_le
  rw [List.length_take]
  omega

theorem yieldNode_spec {C : Type} (n : Node C) :
    ∀ (a : Nat) (sel : Nat × Nat), n.sizeValid = true →
      yieldNode n (a, a + n.len) sel = some (sliceAt n.toList a sel) := by
  induction n with
  | Leaf b =>
      intro a sel _
      rw [yieldNode.eq_def]
      dsimp only [Node.len_leaf, Node.toList]
      by_cases hc : remptyR (interR (a, a + b.length) sel) = true
      · rw [if_pos hc, sliceAt_empty b a sel hc]
      · rw [if_neg hc]
        simp only [remptyR, interR, decide_eq_true_eq, not_le] at hc
        rw [if_pos ⟨by simp only [interR]; omega, by simp only [interR]; omega,
          by simp only [interR]; omega⟩]
        refine congrArg some ?_
        unfold sliceAt
        rw [List.drop_take]
        simp only [interR]
        have hs' : max a sel.1 - a = sel.1 - a := by omega
        rw [hs']
        refine List.take_eq_take.mpr ?_
        rw [List.length_drop]
        omega
  | Inner p s l r ihl ihr =>
      intro a sel hsv
      have hsv' := hsv
      rw [Node.sizeValid_inner] at hsv
      obtain ⟨hs, hl, hr⟩ := hsv
      rw [yieldNode.eq_def]
      dsimp only [Node.len_inner, Node.toList]
      by_cases hc : remptyR (interR (a, a + s) sel) = true
      · rw [if_pos hc]
        have hlen : (Node.Inner p s l r : Node C).toList.length = s := by
          rw [Node.toList_length _ hsv']
          rfl
        rw [sliceAt_empty _ a sel (by
          simp only [Node.toList] at hlen
          rw [hlen]
          exact hc)]
      · rw [if_neg hc, ihl a sel hl]
        have has : a + s = a + l.len + r.len := by omega
        rw [has, ihr (a + l.len) sel hr]
        simp only [Option.bind_eq_bind, Option.some_bind]
        rw [sliceAt_append, Node.toList_length l hl]

theorem Node.betweenE_eq {C : Type} (t : Node C) (sel : Nat × Nat)
    (h : t.sizeValid = true) :
    t.betweenE sel = some ((t.toList.take sel.2).drop sel.1) := by
  have hlen := Node.toList_length t h
  have hslice : sliceAt t.toList 0 sel = (t.toList.take sel.2).drop sel.1 := by
    unfold sliceAt
    rw [Nat.sub_zero, Nat.sub_zero]
  rw [Node.betweenE]
  by_cases hc : remptyR (interR (0, t.len) sel) = true
  · rw [if_pos hc, betweenLoop_nil]
    rw [← hslice, sliceAt_empty t.toList 0 sel (by rw [hlen]; simpa using hc)]
  · rw [if_neg hc,
      betweenLoop_cons t (0, t.len) [] sel (Bool.not_eq_true _ ▸ hc),
      betweenLoop_nil]
    have hy := yieldNode_spec t 0 sel h
    rw [Nat.zero_add] at hy
    rw [hy, hslice]
    simp [Option.bind_eq_bind, Option.some_bind]

theorem Node.iterE_eq {C : Type} (t : Node C) (h : t.sizeValid = true) :
    t.iterE = some t.toList := by
  rw [Node.iterE, Node.betweenE_eq t _ h, List.drop_zero,
    List.take_of_length_le (by rw [Node.toList_length t h])]

/-- Claim C6: for every size-consistent treap and bounds
`lo ≤ hi ≤ len`, `between(lo..hi)` yields exactly the elements at logical
positions `lo, ..., hi - 1` in ascending order — the result of restricting
`iter()` to those positions (an empty range yielding the empty sequence). -/
theorem c6_between_range_correct {C : Type} (t : Node C) (lo hi : Nat)
    (hsz : t.sizeValid = true) (hlohi : lo ≤ hi) (hhi : hi ≤ t.len) :
    ∃ all, t.iterE = some all ∧
      t.betweenE (lo, hi) = some ((all.drop lo).take (hi - lo)) := by
  refine ⟨t.toList, Node.iterE_eq t hsz, ?_⟩
  rw [Node.betweenE_eq t _ hsz]
  exact congrArg some (List.drop_take hi lo t.toList)

/-- Witness for C6 on a two-leaf treap with bounds 1 ≤ 2 ≤ 2. -/
theorem c6_between_range_correct_witness :
    (Node.Inner 5 2 (.Leaf [10]) (.Leaf [20]) : Node Nat).sizeValid = true ∧
      (1 : Nat) ≤ 2 ∧
      2 ≤ (Node.Inner 5 2 (.Leaf [10]) (.Leaf [20]) : Node Nat).len ∧
      ∃ all,
        (Node.Inner 5 2 (.Leaf [10]) (.Leaf [20]) : Node Nat).iterE = some all ∧
        (Node.Inner 5 2 (.Leaf [10]) (.Leaf [20]) : Node Nat).betweenE (1, 2) =
          some ((all.drop 1).take (2 - 1)) :=
  ⟨by decide, by decide, by decide,
    c6_between_range_correct (Node.Inner 5 2 (.Leaf [10]) (.Leaf [20])) 1 2
      (by decide) (by decide) (by decide)⟩

/-- Claim C10: `between` is total over all ranges: for every size-consistent
treap and every `lo`, `hi` (including `hi > len()` and `lo ≥ hi`) no panic is
reachable and the yield is exactly the elements at positions in
`[lo, hi) ∩ [0, len())` in ascending order; in particular a range overshooting
`len()` behaves like `between(lo..len())`. -/
theorem c10_between_total {C : Type} (t : Node C) (lo hi : Nat)
    (hsz : t.sizeValid = true) :
    t.betweenE (lo, hi) = some ((t.toList.drop lo).take (hi - lo)) ∧
    t.betweenE (lo, hi) = t.betweenE (lo, min hi t.len) := by
  constructor
  · rw [Node.betweenE_eq t _ hsz]
    exact congrArg some (List.drop_take hi lo t.toList)
  · rw [Node.betweenE_eq t _ hsz, Node.betweenE_eq t _ hsz]
    refine congrArg some (congrArg (List.drop lo) ?_)
    refine List.take_eq_take.mpr ?_
    rw [Node.toList_length t hsz]
    omega

/-- Witness for C10 on a two-leaf treap with an overshooting empty-ish range. -/
theorem c10_between_total_witness :
    (Node.Inner 5 2 (.Leaf [10]) (.Leaf [20]) : Node Nat).sizeValid = true ∧
      ((Node.Inner 5 2 (.Leaf [10]) (.Leaf [20]) : Node Nat).betweenE (1, 99) =
          some ((([10, 20] : List Nat).drop 1).take (99 - 1)) ∧
        (Node.Inner 5 2 (.Leaf [10]) (.Leaf [20]) : Node Nat).betweenE (1, 99) =
          (Node.Inner 5 2 (.Leaf [10]) (.Leaf [20]) : Node Nat).betweenE
            (1, min 99 (Node.Inner 5 2 (.Leaf [10]) (.Leaf [20]) : Node Nat).len)) :=
  ⟨by decide,
    c10_between_total (Node.Inner 5 2 (.Leaf [10]) (.Leaf [20])) 1 99 (by decide)⟩

/-! Bulk construction: helper notions. -/

/-- Erase all priorities (proof helper): trees related by a priority
reassignment agree after stripping. -/
def stripPrios {C : Type} : Node C → Node C
  | .Leaf b => .Leaf b
  | .Inner _ s l r => .Inner 0 s (stripPrios l) (stripPrios r)

/-- All priorities stored in inner nodes of a tree (proof helper). -/
def innerPrios {C : Type} : Node C → List Priority
  | .Leaf _ => []
  | .Inner p _ l r => p :: (innerPrios l ++ innerPrios r)

theorem stripPrios_toList {C : Type} (t : Node C) :
    (stripPrios t).toList = t.toList := by
  induction t with
  | Leaf b => rfl
  | Inner p s l r ihl ihr => simp [stripPrios, Node.toList, ihl, ihr]

theorem stripPrios_len {C : Type} (t : Node C) : (stripPrios t).len = t.len := by
  cases t <;> rfl

theorem stripPrios_sizeValid {C : Type} (t : Node C) :
    (stripPrios t).sizeValid = t.sizeValid := by
  induction t with
  | Leaf b => rfl
  | Inner p s l r ihl ihr =>
      simp [stripPrios, Node.sizeValid, ihl, ihr, stripPrios_len]

theorem stripPrios_subLeavesNE {C : Type} (t : Node C) :
    (stripPrios t).subLeavesNE = t.subLeavesNE := by
  induction t with
  | Leaf b => rfl
  | Inner p s l r ihl ihr => simp [stripPrios, Node.subLeavesNE, ihl, ihr]

theorem stripPrios_innerCount {C : Type} (t : Node C) :
    (stripPrios t).innerCount = t.innerCount := by
  induction t with
  | Leaf b => rfl
  | Inner p s l r ihl ihr => simp [stripPrios, Node.innerCount, ihl, ihr]

theorem heapBelow_of_valid_mem {C : Type} {t : Node C} {b : Priority}
    (hh : t.heapValidN = true) (hm : ∀ q ∈ innerPrios t, q ≤ b) :
    t.heapBelow b = true := by
  cases t with
  | Leaf x => rfl
  | Inner p s l r =>
      simp only [Node.heapValidN, Bool.and_eq_true] at hh
      simp only [Node.heapBelow, Bool.and_eq_true, decide_eq_true_eq]
      exact ⟨⟨hm p (by simp [innerPrios]), hh.1⟩, hh.2⟩

theorem strictLeavesNE_of_sub {C : Type} {t : Node C}
    (h : t.subLeavesNE = true) : t.strictLeavesNE = true := by
  cases t with
  | Leaf b => rfl
  | Inner p s l r =>
      simp only [Node.subLeavesNE, Bool.and_eq_true] at h
      simp [Node.strictLeavesNE, h.1, h.2]

/-- Whether the root of a tree is an inner node (proof helper). -/
def rootBit {C : Type} : Node C → Nat
  | .Leaf _ => 0
  | .Inner _ _ _ _ => 1

/-- Number of forest roots that are inner nodes (proof helper). -/
def rootInners {C : Type} (f : List (Node C)) : Nat := (f.map rootBit).sum

/-- Total number of inner nodes across a forest (proof helper). -/
def totalInners {C : Type} (f : List (Node C)) : Nat :=
  (f.map Node.innerCount).sum

theorem totalInners_children {C : Type} (t : Node C) :
    totalInners (childrenOf t) + rootBit t = t.innerCount := by
  cases t with
  | Leaf b => rfl
  | Inner p s l r =>
      simp [totalInners, childrenOf, rootBit, Node.innerCount]
      omega

theorem totalInners_flatMap {C : Type} (f : List (Node C)) :
    totalInners (f.flatMap childrenOf) + rootInners f = totalInners f := by
  induction f with
  | nil => rfl
  | cons t rest ih =>
      have h := totalInners_children t
      simp only [List.flatMap_cons, totalInners, rootInners, List.map_append,
        List.sum_append, List.map_cons, List.sum_cons] at *
      omega

theorem rootInners_le_totalInners {C : Type} (f : List (Node C)) :
    rootInners f ≤ totalInners f := by
  induction f with
  | nil => exact Nat.le_refl _
  | cons t rest ih =>
      have h : rootBit t ≤ t.innerCount := by
        cases t
        · exact Nat.le_refl _
        · simp only [rootBit, Node.innerCount]
          omega
      simp only [rootInners, totalInners, List.map_cons, List.sum_cons] at *
      omega

theorem popLast_eq {ps : List Priority} :
    ∀ {p : Priority} {ps' : List Priority},
      popLast ps = some (p, ps') → ps = ps' ++ [p] := by
  induction ps with
  | nil => intro p ps' h; exact Option.noConfusion h
  | cons q tail ih =>
      intro p ps' h
      cases tail with
      | nil =>
          rw [popLast] at h
          simp only [Option.some.injEq, Prod.mk.injEq] at h
          obtain ⟨rfl, h2⟩ := h
          rw [← h2]
          rfl
      | cons r rest =>
          rw [popLast] at h
          cases hp : popLast (r :: rest) with
          | none => rw [hp] at h; exact Option.noConfusion h
          | some pr =>
              obtain ⟨p2, ps2⟩ := pr
              rw [hp] at h
              simp only [Option.map_some', Option.map_some, Option.some.injEq,
                Prod.mk.injEq] at h
              obtain ⟨rfl, h2⟩ := h
              rw [← h2, ih hp]
              rfl

theorem popLast_success {ps : List Priority} (h : ps ≠ []) :
    ∃ p ps', popLast ps = some (p, ps') ∧ ps'.length + 1 = ps.length := by
  induction ps with
  | nil => exact absurd rfl h
  | cons q tail ih =>
      cases tail with
      | nil => exact ⟨q, [], rfl, rfl⟩
      | cons r rest =>
          obtain ⟨p, ps', hp, hl⟩ := ih (by simp)
          refine ⟨p, q :: ps', ?_, ?_⟩
          · rw [popLast, hp]
            rfl
          · simp only [List.length_cons] at hl ⊢
            omega

/-- Relation established by one level of priority assignment (proof helper):
leaves unchanged; each inner root keeps its size and children but now carries
a priority drawn from `ps` that dominates every priority left in `low`. -/
def assignRel {C : Type} (ps low : List Priority) : Node C → Node C → Prop
  | .Leaf b, t' => t' = .Leaf b
  | .Inner _ s l r, t' =>
      ∃ p', t' = .Inner p' s l r ∧ p' ∈ ps ∧ ∀ z ∈ low, z ≤ p'

theorem assignRel_mono {C : Type} {ps ps₀ low : List Priority}
    (hsub : ∀ z ∈ ps₀, z ∈ ps) {t t' : Node C}
    (h : assignRel ps₀ low t t') : assignRel ps low t t' := by
  cases t with
  | Leaf b => exact h
  | Inner q s l r =>
      obtain ⟨p', rfl, hm, hb⟩ := h
      exact ⟨p', rfl, hsub p' hm, hb⟩

theorem assignRoots_spec {C : Type} (forest : List (Node C)) :
    ∀ (ps : List Priority) (roots : List (Node C)) (ps1 : List Priority),
      List.Sorted (· ≤ ·) ps →
      assignRoots forest ps = some (roots, ps1) →
      List.Sorted (· ≤ ·) ps1 ∧ ps1 <+: ps ∧
      List.Forall₂ (assignRel ps ps1) forest roots := by
  induction forest with
  | nil =>
      intro ps roots ps1 hs h
      rw [assignRoots] at h
      simp only [Option.some.injEq, Prod.mk.injEq] at h
      obtain ⟨h1, h2⟩ := h
      subst h1
      subst h2
      exact ⟨hs, List.prefix_refl _, List.Forall₂.nil⟩
  | cons t rest ih =>
      intro ps roots ps1 hs h
      cases t with
      | Leaf b =>
          rw [assignRoots] at h
          cases hr : assignRoots rest ps with
          | none => rw [hr] at h; exact Option.noConfusion h
          | some res =>
              obtain ⟨f, ps₂⟩ := res
              rw [hr] at h
              simp only [Option.map_some', Option.some.injEq, Prod.mk.injEq] at h
              obtain ⟨h1, h2⟩ := h
              subst h1
              subst h2
              obtain ⟨hs1, hp1, hf⟩ := ih ps f ps₂ hs hr
              exact ⟨hs1, hp1, List.Forall₂.cons rfl hf⟩
      | Inner q s l r =>
          rw [assignRoots] at h
          cases hp : popLast ps with
          | none => rw [hp] at h; exact Option.noConfusion h
          | some pr =>
              obtain ⟨p, ps'⟩ := pr
              rw [hp] at h
              have hm : Option.map (fun x => (Node.Inner p s l r :: x.1, x.2))
                  (assignRoots rest ps') = some (roots, ps1) := h
              cases hr : assignRoots rest ps' with
              | none => rw [hr] at hm; exact Option.noConfusion hm
              | some res =>
                  obtain ⟨f, ps₂⟩ := res
                  rw [hr] at hm
                  simp only [Option.map_some', Option.some.injEq,
                    Prod.mk.injEq] at hm
                  obtain ⟨h1, h2⟩ := hm
                  subst h1
                  subst h2
                  have hps := popLast_eq hp
                  have hsorted : List.Sorted (· ≤ ·) ps' ∧ ∀ z ∈ ps', z ≤ p := by
                    rw [hps] at hs
                    obtain ⟨h1, h2, h3⟩ := List.pairwise_append.mp hs
                    exact ⟨h1, fun z hz => h3 z hz p (by simp)⟩
                  obtain ⟨hs', hbound⟩ := hsorted
                  obtain ⟨hs1, hp1, hf⟩ := ih ps' f ps₂ hs' hr
                  refine ⟨hs1, ?_, ?_⟩
                  · rw [hps]
                    exact hp1.trans (List.prefix_append ps' [p])
                  · refine List.Forall₂.cons ⟨p, rfl, ?_, ?_⟩ ?_
                    · rw [hps]; simp
                    · intro z hz
                      exact hbound z (hp1.subset hz)
                    · exact hf.imp (fun a b hab =>
                        assignRel_mono
                          (fun z hz => by
                            rw [hps]; exact List.mem_append_left _ hz) hab)

theorem assignRoots_success {C : Type} (forest : List (Node C)) :
    ∀ ps : List Priority, rootInners forest ≤ ps.length →
      ∃ roots ps1, assignRoots forest ps = some (roots, ps1) ∧
        ps1.length + rootInners forest = ps.length := by
  induction forest with
  | nil =>
      intro ps _
      exact ⟨[], ps, rfl, by simp [rootInners]⟩
  | cons t rest ih =>
      intro ps h
      cases t with
      | Leaf b =>
          have h' : rootInners rest ≤ ps.length := by
            simp only [rootInners, List.map_cons, List.sum_cons, rootBit] at h ⊢
            omega
          obtain ⟨roots, ps1, hr, hl⟩ := ih ps h'
          refine ⟨Node.Leaf b :: roots, ps1, ?_, ?_⟩
          · rw [assignRoots, hr]
            rfl
          · simp only [rootInners, List.map_cons, List.sum_cons, rootBit] at hl ⊢
            omega
      | Inner q s l r =>
          have hne : ps ≠ [] := by
            intro hnil
            subst hnil
            simp only [rootInners, List.map_cons, List.sum_cons, rootBit,
              List.length_nil] at h
            omega
          obtain ⟨p, ps', hp, hl'⟩ := popLast_success hne
          have h' : rootInners rest ≤ ps'.length := by
            simp only [rootInners, List.map_cons, List.sum_cons, rootBit] at h ⊢
            omega
          obtain ⟨roots, ps1, hr, hl⟩ := ih ps' h'
          refine ⟨Node.Inner p s l r :: roots, ps1, ?_, ?_⟩
          · rw [assignRoots, hp]
            show Option.map (fun x => (Node.Inner p s l r :: x.1, x.2))
              (assignRoots rest ps') = some (Node.Inner p s l r :: roots, ps1)
            rw [hr]
            rfl
          · simp only [rootInners, List.map_cons, List.sum_cons, rootBit] at hl ⊢
            omega


theorem reattach_spec {C : Type} {ps ps1 : List Priority}
    (hsub : ∀ z ∈ ps1, z ∈ ps) :
    ∀ (forest roots kids kids' : List (Node C)),
      List.Forall₂ (assignRel ps ps1) forest roots →
      kids = forest.flatMap childrenOf →
      List.Forall₂ (fun t t' => stripPrios t' = stripPrios t ∧
        t'.heapValidN = true ∧ ∀ q ∈ innerPrios t', q ∈ ps1) kids kids' →
      List.Forall₂ (fun t t' => stripPrios t' = stripPrios t ∧
        t'.heapValidN = true ∧ ∀ q ∈ innerPrios t', q ∈ ps) forest
        (reattach roots kids') := by
  intro forest
  induction forest with
  | nil =>
      intro roots kids kids' hfr hk hkk
      cases hfr
      subst hk
      cases hkk
      exact List.Forall₂.nil
  | cons t rest ih =>
      intro roots kids kids' hfr hk hkk
      cases hfr with
      | cons hrel htail =>
          rename_i root' roots'
          cases t with
          | Leaf b =>
              rw [show root' = Node.Leaf b from hrel]
              rw [List.flatMap_cons] at hk
              simp only [childrenOf, List.nil_append] at hk
              rw [reattach]
              refine List.Forall₂.cons ?_ (ih roots' kids kids' htail hk hkk)
              exact ⟨rfl, rfl, by simp [innerPrios]⟩
          | Inner q s l r =>
              obtain ⟨p', rfl, hmem, hbound⟩ := hrel
              rw [List.flatMap_cons] at hk
              simp only [childrenOf, List.cons_append, List.nil_append] at hk
              subst hk
              cases hkk with
              | cons hl hkk1 =>
                  rename_i l' kids'₁
                  cases hkk1 with
                  | cons hr hkk2 =>
                      rename_i r' kids'₂
                      rw [reattach]
                      refine List.Forall₂.cons ?_
                        (ih roots' _ kids'₂ htail rfl hkk2)
                      obtain ⟨hsl, hhl, hml⟩ := hl
                      obtain ⟨hsr, hhr, hmr⟩ := hr
                      refine ⟨?_, ?_, ?_⟩
                      · simp [stripPrios, hsl, hsr]
                      · simp only [Node.heapValidN, Bool.and_eq_true]
                        exact ⟨heapBelow_of_valid_mem hhl
                            (fun qq hq => hbound qq (hml qq hq)),
                          heapBelow_of_valid_mem hhr
                            (fun qq hq => hbound qq (hmr qq hq))⟩
                      · intro qq hq
                        simp only [innerPrios, List.mem_cons,
                          List.mem_append] at hq
                        rcases hq with rfl | hq | hq
                        · exact hmem
                        · exact hsub qq (hml qq hq)
                        · exact hsub qq (hmr qq hq)

theorem bfsAssign_spec {C : Type} :
    ∀ (N : Nat) (forest : List (Node C)) (ps : List Priority)
      (res : List (Node C) × List Priority),
      forestCount forest ≤ N →
      List.Sorted (· ≤ ·) ps →
      bfsAssign forest ps = some res →
      res.2 <+: ps ∧
      List.Forall₂ (fun t t' => stripPrios t' = stripPrios t ∧
        t'.heapValidN = true ∧ ∀ q ∈ innerPrios t', q ∈ ps) forest res.1 := by
  intro N
  induction N with
  | zero =>
      intro forest ps res hcount hs h
      cases forest with
      | nil =>
          rw [bfsAssign] at h
          simp only [Option.some.injEq] at h
          subst h
          exact ⟨List.prefix_refl _, List.Forall₂.nil⟩
      | cons t rest =>
          exfalso
          have h1 : 1 ≤ Node.count t := by
            cases t
            · exact Nat.le_refl _
            · simp only [Node.count]
              omega
          simp only [forestCount, List.map_cons, List.sum_cons] at hcount
          omega
  | succ N ih =>
      intro forest ps res hcount hs h
      cases forest with
      | nil =>
          rw [bfsAssign] at h
          simp only [Option.some.injEq] at h
          subst h
          exact ⟨List.prefix_refl _, List.Forall₂.nil⟩
      | cons t rest =>
          rw [bfsAssign] at h
          cases har : assignRoots (t :: rest) ps with
          | none => rw [har] at h; exact Option.noConfusion h
          | some ar =>
              obtain ⟨roots, ps1⟩ := ar
              rw [har] at h
              have h2 : (match bfsAssign ((t :: rest).flatMap childrenOf) ps1 with
                | none => none
                | some (kids, ps2) => some (reattach roots kids, ps2)) =
                  some res := h
              cases hbf : bfsAssign ((t :: rest).flatMap childrenOf) ps1 with
              | none => rw [hbf] at h2; exact Option.noConfusion h2
              | some bf =>
                  obtain ⟨kids', ps2⟩ := bf
                  rw [hbf] at h2
                  simp only [Option.some.injEq] at h2
                  subst h2
                  obtain ⟨hs1, hpfx1, hfr⟩ :=
                    assignRoots_spec _ ps roots ps1 hs har
                  have hcount' :
                      forestCount ((t :: rest).flatMap childrenOf) ≤ N := by
                    have hfc := forestCount_flatMap (t :: rest)
                    simp only [List.length_cons] at hfc
                    omega
                  obtain ⟨hpfx2, hkk⟩ := ih _ ps1 (kids', ps2) hcount' hs1 hbf
                  exact ⟨hpfx2.trans hpfx1,
                    reattach_spec (fun z hz => hpfx1.subset hz) _ roots _ kids'
                      hfr rfl hkk⟩

theorem bfsAssign_success {C : Type} :
    ∀ (N : Nat) (forest : List (Node C)) (ps : List Priority),
      forestCount forest ≤ N → totalInners forest = ps.length →
      ∃ res, bfsAssign forest ps = some res := by
  intro N
  induction N with
  | zero =>
      intro forest ps hcount htot
      cases forest with
      | nil => exact ⟨([], ps), by rw [bfsAssign]⟩
      | cons t rest =>
          exfalso
          have h1 : 1 ≤ Node.count t := by
            cases t
            · exact Nat.le_refl _
            · simp only [Node.count]
              omega
          simp only [forestCount, List.map_cons, List.sum_cons] at hcount
          omega
  | succ N ih =>
      intro forest ps hcount htot
      cases forest with
      | nil => exact ⟨([], ps), by rw [bfsAssign]⟩
      | cons t rest =>
          have hri : rootInners (t :: rest) ≤ ps.length :=
            htot ▸ rootInners_le_totalInners (t :: rest)
          obtain ⟨roots, ps1, har, hlen⟩ := assignRoots_success _ ps hri
          have hcount' :
              forestCount ((t :: rest).flatMap childrenOf) ≤ N := by
            have hfc := forestCount_flatMap (t :: rest)
            have h1 : 1 ≤ Node.count t := by
              cases t
              · exact Nat.le_refl _
              · simp only [Node.count]
                omega
            simp only [List.length_cons] at hfc
            simp only [forestCount, List.map_cons, List.sum_cons] at hcount hfc ⊢
            omega
          have htot' : totalInners ((t :: rest).flatMap childrenOf) =
              ps1.length := by
            have hfm := totalInners_flatMap (t :: rest)
            omega
          obtain ⟨res2, hbf⟩ := ih _ ps1 hcount' htot'
          obtain ⟨kids', ps2⟩ := res2
          refine ⟨(reattach roots kids', ps2), ?_⟩
          rw [bfsAssign, har]
          show (match bfsAssign ((t :: rest).flatMap childrenOf) ps1 with
            | none => none
            | some (kids, ps2) => some (reattach roots kids, ps2)) =
              some (reattach roots kids', ps2)
          rw [hbf]

/-! Chunking and the merge stack. -/

/-- Flattened contents of the build stack, deepest (leftmost) node first
(proof helper; the stack itself is topmost-first). -/
def stackLists {C : Type} (st : List (Node C)) : List C :=
  ((st.reverse).map Node.toList).flatten

/-- Total leaf count of the build stack (proof helper). -/
def stackLeaves {C : Type} (st : List (Node C)) : Nat :=
  (st.map Node.leafCount).sum

/-- The facts maintained for every node on the build stack (proof helper). -/
def goodNode {C : Type} (t : Node C) : Prop :=
  t.sizeValid = true ∧ t.subLeavesNE = true ∧ t.innerCount + 1 = t.leafCount

theorem stackLists_cons {C : Type} (x : Node C) (l : List (Node C)) :
    stackLists (x :: l) = stackLists l ++ x.toList := by
  simp [stackLists]

theorem chunkHalf_nil {C : Type} : chunkHalf ([] : List C) = [] := by
  rw [chunkHalf]

theorem chunkHalf_cons {C : Type} (x : C) (xs : List C) :
    chunkHalf (x :: xs) = ((x :: xs).take (BLOCK_SIZE / 2)) ::
      chunkHalf ((x :: xs).drop (BLOCK_SIZE / 2)) := by
  rw [chunkHalf]

theorem chunkHalf_join {C : Type} :
    ∀ (N : Nat) (s : List C), s.length ≤ N → (chunkHalf s).flatten = s := by
  intro N
  induction N with
  | zero =>
      intro s h
      rw [List.length_eq_zero.mp (Nat.le_zero.mp h), chunkHalf_nil]
      rfl
  | succ N ih =>
      intro s h
      cases s with
      | nil => rw [chunkHalf_nil]; rfl
      | cons x xs =>
          rw [chunkHalf_cons, List.flatten_cons]
          have hd : ((x :: xs).drop (BLOCK_SIZE / 2)).length ≤ N := by
            rw [List.length_drop]
            simp only [List.length_cons] at h ⊢
            have hB2 : BLOCK_SIZE = 1000 := rfl
            omega
          rw [ih _ hd, List.take_append_drop]

theorem chunkHalf_mem_ne {C : Type} :
    ∀ (N : Nat) (s : List C), s.length ≤ N → ∀ c ∈ chunkHalf s, c ≠ [] := by
  intro N
  induction N with
  | zero =>
      intro s h c hc
      rw [List.length_eq_zero.mp (Nat.le_zero.mp h), chunkHalf_nil] at hc
      exact absurd hc (List.not_mem_nil c)
  | succ N ih =>
      intro s h c hc
      cases s with
      | nil => rw [chunkHalf_nil] at hc; exact absurd hc (List.not_mem_nil c)
      | cons x xs =>
          rw [chunkHalf_cons] at hc
          rcases List.mem_cons.mp hc with rfl | hc
          · intro hnil
            have hlen := congrArg List.length hnil
            rw [List.length_take] at hlen
            simp only [List.length_cons, List.length_nil] at hlen
            have hB2 : BLOCK_SIZE = 1000 := rfl
            omega
          · have hd : ((x :: xs).drop (BLOCK_SIZE / 2)).length ≤ N := by
              rw [List.length_drop]
              simp only [List.length_cons] at h ⊢
              have hB2 : BLOCK_SIZE = 1000 := rfl
              omega
            exact ih _ hd c hc

theorem chunkHalf_ne_nil {C : Type} {s : List C} (h : s ≠ []) :
    chunkHalf s ≠ [] := by
  cases s with
  | nil => exact absurd rfl h
  | cons x xs => rw [chunkHalf_cons]; simp

theorem mergeLoop_spec {C : Type} :
    ∀ (N : Nat) (st : List (Node C)), st.length ≤ N →
      (∀ t ∈ st, goodNode t) →
      (∀ t ∈ mergeLoop st, goodNode t) ∧
      stackLists (mergeLoop st) = stackLists st ∧
      stackLeaves (mergeLoop st) = stackLeaves st ∧
      (mergeLoop st = [] ↔ st = []) := by
  intro N
  induction N with
  | zero =>
      intro st h hg
      rw [List.length_eq_zero.mp (Nat.le_zero.mp h)]
      rw [show mergeLoop ([] : List (Node C)) = [] from by rw [mergeLoop]]
      exact ⟨fun t ht => absurd ht (List.not_mem_nil t), rfl, rfl, Iff.rfl⟩
  | succ N ih =>
      intro st h hg
      match st with
      | [] =>
          rw [show mergeLoop ([] : List (Node C)) = [] from by rw [mergeLoop]]
          exact ⟨hg, rfl, rfl, Iff.rfl⟩
      | [a] =>
          rw [show mergeLoop [a] = [a] from by rw [mergeLoop]]
          exact ⟨hg, rfl, rfl, Iff.rfl⟩
      | a :: b :: rest =>
          rw [mergeLoop]
          split
          · rename_i heq
            have hga : goodNode a := hg a (by simp)
            have hgb : goodNode b := hg b (by simp)
            have hgm : goodNode (Node.Inner 0 (b.len + a.len) b a) := by
              obtain ⟨hsa, hna, hca⟩ := hga
              obtain ⟨hsb, hnb, hcb⟩ := hgb
              refine ⟨?_, ?_, ?_⟩
              · rw [Node.sizeValid_inner]
                exact ⟨rfl, hsb, hsa⟩
              · simp only [Node.subLeavesNE, Bool.and_eq_true]
                exact ⟨hnb, hna⟩
              · simp only [Node.innerCount, Node.leafCount]
                omega
            have hlen : (Node.Inner 0 (b.len + a.len) b a :: rest).length ≤ N := by
              simp only [List.length_cons] at h ⊢
              omega
            have hgall : ∀ t ∈ Node.Inner 0 (b.len + a.len) b a :: rest,
                goodNode t := by
              intro t ht
              rcases List.mem_cons.mp ht with rfl | ht
              · exact hgm
              · exact hg t (by simp [ht])
            obtain ⟨h1, h2, h3, h4⟩ := ih _ hlen hgall
            refine ⟨h1, ?_, ?_, ?_⟩
            · rw [h2, stackLists_cons, stackLists_cons, stackLists_cons]
              simp [Node.toList, List.append_assoc]
            · rw [h3]
              simp only [stackLeaves, List.map_cons, List.sum_cons,
                Node.leafCount]
              omega
            · rw [h4]
              constructor
              · intro hcontra; exact List.noConfusion hcontra
              · intro hcontra; exact List.noConfusion hcontra
          · exact ⟨hg, rfl, rfl, by simp⟩

theorem buildStack_fold {C : Type} (chunks : List (List C)) :
    ∀ acc : List (Node C) × Nat,
      (∀ c ∈ chunks, c ≠ []) →
      (∀ t ∈ acc.1, goodNode t) →
      (∀ t ∈ (chunks.foldl (fun acc chunk =>
          (mergeLoop (Node.Leaf chunk :: acc.1), acc.2 + 1)) acc).1,
        goodNode t) ∧
      stackLists (chunks.foldl (fun acc chunk =>
          (mergeLoop (Node.Leaf chunk :: acc.1), acc.2 + 1)) acc).1 =
        stackLists acc.1 ++ chunks.flatten ∧
      stackLeaves (chunks.foldl (fun acc chunk =>
          (mergeLoop (Node.Leaf chunk :: acc.1), acc.2 + 1)) acc).1 =
        stackLeaves acc.1 + chunks.length ∧
      (chunks.foldl (fun acc chunk =>
          (mergeLoop (Node.Leaf chunk :: acc.1), acc.2 + 1)) acc).2 =
        acc.2 + chunks.length ∧
      ((chunks.foldl (fun acc chunk =>
          (mergeLoop (Node.Leaf chunk :: acc.1), acc.2 + 1)) acc).1 = [] →
        acc.1 = [] ∧ chunks = []) := by
  induction chunks with
  | nil =>
      intro acc _ hg
      exact ⟨hg, by simp, by simp, by simp, fun h => ⟨h, rfl⟩⟩
  | cons c cs ih =>
      intro acc hne hg
      have hgc : goodNode (Node.Leaf c : Node C) := by
        refine ⟨rfl, ?_, rfl⟩
        simp only [Node.subLeavesNE, decide_eq_true_eq]
        have := hne c (by simp)
        cases c with
        | nil => exact absurd rfl this
        | cons y ys => simp
      have hgall : ∀ t ∈ Node.Leaf c :: acc.1, goodNode t := by
        intro t ht
        rcases List.mem_cons.mp ht with rfl | ht
        · exact hgc
        · exact hg t ht
      obtain ⟨m1, m2, m3, m4⟩ :=
        mergeLoop_spec (Node.Leaf c :: acc.1).length (Node.Leaf c :: acc.1)
          (Nat.le_refl _) hgall
      have hne' : ∀ d ∈ cs, d ≠ [] := fun d hd => hne d (by simp [hd])
      obtain ⟨f1, f2, f3, f4, f5⟩ :=
        ih (mergeLoop (Node.Leaf c :: acc.1), acc.2 + 1) hne' m1
      simp only [List.foldl_cons]
      refine ⟨f1, ?_, ?_, ?_, ?_⟩
      · rw [f2, m2, stackLists_cons]
        simp [Node.toList, List.append_assoc]
      · rw [f3, m3]
        simp only [stackLeaves, List.map_cons, List.sum_cons, Node.leafCount,
          List.length_cons]
        omega
      · rw [f4]
        simp only [List.length_cons]
        omega
      · intro hemp
        obtain ⟨hm, _⟩ := f5 hemp
        rw [m4] at hm
        exact absurd hm (by simp)

theorem foldStack_go {C : Type} :
    ∀ (rest : List (Node C)) (t : Node C),
      goodNode t → (∀ u ∈ rest, goodNode u) →
      goodNode (rest.foldl (fun right left =>
        Node.Inner 0 (left.len + right.len) left right) t) ∧
      (rest.foldl (fun right left =>
        Node.Inner 0 (left.len + right.len) left right) t).toList =
        stackLists rest ++ t.toList ∧
      (rest.foldl (fun right left =>
        Node.Inner 0 (left.len + right.len) left right) t).leafCount =
        stackLeaves rest + t.leafCount := by
  intro rest
  induction rest with
  | nil =>
      intro t hg _
      refine ⟨hg, ?_, ?_⟩
      · simp [stackLists]
      · simp [stackLeaves]
  | cons u us ih =>
      intro t hg hgu
      have hgn : goodNode (Node.Inner 0 (u.len + t.len) u t : Node C) := by
        obtain ⟨hst, hnt, hct⟩ := hg
        obtain ⟨hsu, hnu, hcu⟩ := hgu u (by simp)
        refine ⟨?_, ?_, ?_⟩
        · rw [Node.sizeValid_inner]
          exact ⟨rfl, hsu, hst⟩
        · simp only [Node.subLeavesNE, Bool.and_eq_true]
          exact ⟨hnu, hnt⟩
        · simp only [Node.innerCount, Node.leafCount]
          omega
      obtain ⟨g1, g2, g3⟩ := ih (Node.Inner 0 (u.len + t.len) u t) hgn
        (fun v hv => hgu v (by simp [hv]))
      simp only [List.foldl_cons]
      refine ⟨g1, ?_, ?_⟩
      · rw [g2, stackLists_cons]
        simp [Node.toList, List.append_assoc]
      · rw [g3]
        simp only [stackLeaves, List.map_cons, List.sum_cons, Node.leafCount]
        omega

theorem buildStack_spec {C : Type} (chunks : List (List C))
    (hne : ∀ c ∈ chunks, c ≠ []) :
    (∀ t ∈ (buildStack chunks).1, goodNode t) ∧
    stackLists (buildStack chunks).1 = chunks.flatten ∧
    stackLeaves (buildStack chunks).1 = chunks.length ∧
    (buildStack chunks).2 = chunks.length ∧
    ((buildStack chunks).1 = [] → chunks = []) := by
  have h := buildStack_fold chunks ([], 0) hne
    (fun t ht => absurd ht (List.not_mem_nil t))
  refine ⟨h.1, ?_, ?_, ?_, fun he => (h.2.2.2.2 he).2⟩
  · have h2 := h.2.1
    simpa [stackLists] using h2
  · have h3 := h.2.2.1
    simpa [stackLeaves] using h3
  · have h4 := h.2.2.2.1
    simpa using h4

theorem foldStack_spec {C : Type} (stack : List (Node C))
    (hg : ∀ t ∈ stack, goodNode t) (hne : stack ≠ []) :
    ∃ root, foldStack stack = some root ∧ goodNode root ∧
      root.toList = stackLists stack ∧ root.leafCount = stackLeaves stack := by
  cases stack with
  | nil => exact absurd rfl hne
  | cons t rest =>
      obtain ⟨g1, g2, g3⟩ := foldStack_go rest t (hg t (by simp))
        (fun u hu => hg u (by simp [hu]))
      refine ⟨_, rfl, g1, ?_, ?_⟩
      · rw [stackLists_cons]
        exact g2
      · rw [g3]
        simp only [stackLeaves, List.map_cons, List.sum_cons]
        omega

theorem fromIterE_spec {C : Type} (s : List C) (gen : Nat → Priority) :
    ∃ t, fromIterE s gen = some t ∧ t.toList = s ∧ t.sizeValid = true ∧
      t.len = s.length ∧ t.heapValidN = true ∧ t.is_valid none = true ∧
      (s ≠ [] → t.innerCount + 1 = (chunkHalf s).length) := by
  by_cases hnil : s = []
  · subst hnil
    refine ⟨.Leaf [], ?_, rfl, rfl, rfl, rfl, rfl, fun h => absurd rfl h⟩
    simp only [fromIterE, chunkHalf_nil]
    rfl
  · have hnechunks := chunkHalf_mem_ne s.length s (Nat.le_refl _)
    obtain ⟨hG, hL, hV, hC, hE⟩ := buildStack_spec (chunkHalf s) hnechunks
    have hstackne : (buildStack (chunkHalf s)).1 ≠ [] := by
      intro he
      exact absurd (hE he) (chunkHalf_ne_nil hnil)
    obtain ⟨root, hfold, hgroot, hrootlist, hrootleaf⟩ :=
      foldStack_spec _ hG hstackne
    have hjoin : (chunkHalf s).flatten = s :=
      chunkHalf_join s.length s (Nat.le_refl _)
    have hrootlist' : root.toList = s := by rw [hrootlist, hL, hjoin]
    have hsort : List.Sorted (· ≤ ·) (List.insertionSort (· ≤ ·)
        ((List.range ((buildStack (chunkHalf s)).2 - 1)).map gen)) :=
      List.sorted_insertionSort _ _
    have hlenps : (List.insertionSort (· ≤ ·)
        ((List.range ((buildStack (chunkHalf s)).2 - 1)).map gen)).length =
        (chunkHalf s).length - 1 := by
      rw [(List.perm_insertionSort _ _).length_eq, List.length_map,
        List.length_range, hC]
    have hcount' : root.innerCount + 1 = (chunkHalf s).length := by
      obtain ⟨_, _, hcount⟩ := hgroot
      rw [hrootleaf, hV] at hcount
      exact hcount
    have hinner : totalInners [root] = (List.insertionSort (· ≤ ·)
        ((List.range ((buildStack (chunkHalf s)).2 - 1)).map gen)).length := by
      simp only [totalInners, List.map_cons, List.map_nil, List.sum_cons,
        List.sum_nil]
      rw [hlenps]
      omega
    obtain ⟨res, hbfs⟩ := bfsAssign_success (forestCount [root]) [root] _
      (Nat.le_refl _) hinner
    obtain ⟨forest', ps2⟩ := res
    obtain ⟨hpfx, hrel⟩ := bfsAssign_spec (forestCount [root]) [root] _
      (forest', ps2) (Nat.le_refl _) hsort hbfs
    cases hrel with
    | cons hr htl =>
        rename_i root' forest''
        cases htl
        obtain ⟨hstrip, hheap, hmem⟩ := hr
        have hlist2 : root'.toList = s := by
          rw [← stripPrios_toList root', hstrip, stripPrios_toList, hrootlist']
        have hsz2 : root'.sizeValid = true := by
          rw [← stripPrios_sizeValid root', hstrip, stripPrios_sizeValid]
          exact hgroot.1
        refine ⟨root', ?_, hlist2, hsz2, ?_, hheap, ?_, ?_⟩
        · have hfi : fromIterE s gen =
              (match bfsAssign [root] (List.insertionSort (· ≤ ·)
                  ((List.range ((buildStack (chunkHalf s)).2 - 1)).map gen)) with
                | some ([r'], _) => some r'
                | _ => none) := by
            simp only [fromIterE]
            rw [hfold]
          rw [hbfs] at hfi
          exact hfi
        · have h2 : root'.len = root.len := by
            rw [← stripPrios_len root', hstrip, stripPrios_len]
          rw [h2, ← Node.toList_length root hgroot.1, hrootlist']
        · rw [Node.is_valid_none_eq]
          have hsub2 : root'.subLeavesNE = true := by
            rw [← stripPrios_subLeavesNE root', hstrip, stripPrios_subLeavesNE]
            exact hgroot.2.1
          rw [hheap, strictLeavesNE_of_sub hsub2]
          rfl
        · intro _
          have h3 : root'.innerCount = root.innerCount := by
            rw [← stripPrios_innerCount root', hstrip, stripPrios_innerCount]
          rw [h3]
          exact hcount'

/-- Claim C4: bulk construction round trip — for every finite input sequence
(the empty one included) and every sequence of priority draws, `from_iter`
builds a treap whose length is the input's length and whose `iter()` yields
exactly the input, element for element, in order. -/
theorem c4_bulk_build_round_trip {C : Type} (s : List C) (gen : Nat → Priority) :
    ∃ t, fromIterE s gen = some t ∧ t.len = s.length ∧ t.iterE = some s := by
  obtain ⟨t, h1, h2, h3, h4, _, _, _⟩ := fromIterE_spec s gen
  exact ⟨t, h1, h4, by rw [Node.iterE_eq t h3, h2]⟩

/-- Claim C5: on a nonempty input the bulk build draws exactly
`number of leaf chunks - 1` priorities — which equals the number of inner
nodes of the built shape — and, after sorting them ascending and handing them
out in breadth-first order largest-remaining-first, the built tree satisfies
the heap invariant (with no rotation performed) and passes the validity
check. -/
theorem c5_bulk_build_priorities {C : Type} (s : List C) (gen : Nat → Priority)
    (hne : s ≠ []) :
    ∃ t, fromIterE s gen = some t ∧
      t.innerCount + 1 = (chunkHalf s).length ∧
      t.heapValidN = true ∧ t.is_valid none = true := by
  obtain ⟨t, h1, _, _, _, h5, h6, h7⟩ := fromIterE_spec s gen
  exact ⟨t, h1, h7 hne, h5, h6⟩

/-- Witness for C5 on the one-element input. -/
theorem c5_bulk_build_priorities_witness :
    ([0] : List Nat) ≠ [] ∧
      ∃ t, fromIterE ([0] : List Nat) (fun _ => 0) = some t ∧
        t.innerCount + 1 = (chunkHalf ([0] : List Nat)).length ∧
        t.heapValidN = true ∧ t.is_valid none = true :=
  ⟨by decide, c5_bulk_build_priorities [0] (fun _ => 0) (by decide)⟩

/-- Claim C8: after every completed mutation the size invariant holds —
a completed `insert`/`push` preserves size-validity and grows the length
(the count of elements held) by exactly one, and a completed bulk build is
size-valid with length the input's length (the root's cached size being what
`len()` reports, by definition). -/
theorem c8_sizes_after_mutations {C : Type} :
    (∀ (t : Node C) (i : Nat) (v : C) (p : Priority) (t' : Node C),
      t.sizeValid = true → t.insertE i v p = .ok t' →
      t'.sizeValid = true ∧ t'.len = t.len + 1) ∧
    (∀ (s : List C) (gen : Nat → Priority),
      ∃ t, fromIterE s gen = some t ∧ t.sizeValid = true ∧
        t.len = s.length) := by
  constructor
  · exact fun t i v p t' hs hok => Node.insertE_ok_spec t i v p t' hs hok
  · intro s gen
    obtain ⟨t, h1, _, h3, h4, _, _, _⟩ := fromIterE_spec s gen
    exact ⟨t, h1, h3, h4⟩

/-- Witness for C8: one concrete completed insertion. -/
theorem c8_sizes_after_mutations_witness :
    Node.sizeValid (Node.Leaf ([] : List Nat)) = true ∧
    (Node.Leaf ([] : List Nat)).insertE 0 7 0 = .ok (.Leaf [7]) ∧
    Node.sizeValid (Node.Leaf ([7] : List Nat)) = true ∧
    (Node.Leaf ([7] : List Nat)).len = (Node.Leaf ([] : List Nat)).len + 1 :=
  ⟨by decide, rfl,
    ((c8_sizes_after_mutations (C := Nat)).1 (Node.Leaf []) 0 7 0
      (Node.Leaf [7]) (by decide) rfl).1,
    ((c8_sizes_after_mutations (C := Nat)).1 (Node.Leaf []) 0 7 0
      (Node.Leaf [7]) (by decide) rfl).2⟩

/-! Concrete evaluation of a two-chunk bulk build. -/

theorem chunkHalf_single {C : Type} (s : List C) (hne : s ≠ [])
    (hlen : s.length ≤ BLOCK_SIZE / 2) : chunkHalf s = [s] := by
  cases s with
  | nil => exact absurd rfl hne
  | cons x xs =>
      rw [chunkHalf_cons, List.take_of_length_le hlen,
        List.drop_eq_nil_of_le hlen, chunkHalf_nil]

theorem chunkHalf_two {C : Type} (s : List C) (h1 : BLOCK_SIZE / 2 < s.length)
    (h2 : s.length ≤ BLOCK_SIZE) :
    chunkHalf s = [s.take (BLOCK_SIZE / 2), s.drop (BLOCK_SIZE / 2)] := by
  cases s with
  | nil =>
      simp only [List.length_nil] at h1
      exact absurd h1 (by omega)
  | cons x xs =>
      rw [chunkHalf_cons]
      congr 1
      have hd : (x :: xs).drop (BLOCK_SIZE / 2) ≠ [] := by
        intro hnil
        have hl := congrArg List.length hnil
        rw [List.length_drop] at hl
        simp only [List.length_cons, List.length_nil] at hl h1
        omega
      apply chunkHalf_single _ hd
      rw [List.length_drop]
      simp only [List.length_cons] at h2 ⊢
      have hB : BLOCK_SIZE = 1000 := rfl
      omega

theorem fromIterE_two_chunks {C : Type} (s : List C) (gen : Nat → Priority)
    (h1 : BLOCK_SIZE / 2 < s.length) (h2 : s.length < BLOCK_SIZE) :
    fromIterE s gen =
      some (Node.Inner (gen 0) s.length (.Leaf (s.take (BLOCK_SIZE / 2)))
        (.Leaf (s.drop (BLOCK_SIZE / 2)))) := by
  have hch := chunkHalf_two s h1 (by omega)
  have hlen1 : (s.take (BLOCK_SIZE / 2)).length = BLOCK_SIZE / 2 := by
    rw [List.length_take]
    omega
  have hlen2 : (s.drop (BLOCK_SIZE / 2)).length = s.length - BLOCK_SIZE / 2 :=
    List.length_drop _ _
  have hB : BLOCK_SIZE = 1000 := rfl
  have hm1 : mergeLoop [Node.Leaf (s.take (BLOCK_SIZE / 2))] =
      [Node.Leaf (s.take (BLOCK_SIZE / 2))] := by
    rw [mergeLoop]
  have hml : mergeLoop [Node.Leaf (s.drop (BLOCK_SIZE / 2)),
      Node.Leaf (s.take (BLOCK_SIZE / 2))] =
      [Node.Leaf (s.drop (BLOCK_SIZE / 2)),
        Node.Leaf (s.take (BLOCK_SIZE / 2))] := by
    rw [mergeLoop, if_neg]
    simp only [Node.len_leaf, hlen1, hlen2]
    omega
  have hbs : buildStack (chunkHalf s) =
      ([Node.Leaf (s.drop (BLOCK_SIZE / 2)),
        Node.Leaf (s.take (BLOCK_SIZE / 2))], 2) := by
    rw [hch]
    simp only [buildStack, List.foldl_cons, List.foldl_nil]
    rw [hm1, hml]
  have hsum : (s.take (BLOCK_SIZE / 2)).length +
      (s.drop (BLOCK_SIZE / 2)).length = s.length := by
    rw [hlen1, hlen2]
    omega
  have hfs : foldStack [Node.Leaf (s.drop (BLOCK_SIZE / 2)),
      Node.Leaf (s.take (BLOCK_SIZE / 2))] =
      some (Node.Inner 0 s.length (.Leaf (s.take (BLOCK_SIZE / 2)))
        (.Leaf (s.drop (BLOCK_SIZE / 2)))) := by
    simp only [foldStack, List.foldl_cons, List.foldl_nil, Node.len_leaf]
    rw [hsum]
  have ha1 : assignRoots [Node.Inner 0 s.length
      (Node.Leaf (s.take (BLOCK_SIZE / 2)))
      (Node.Leaf (s.drop (BLOCK_SIZE / 2)))] [gen 0] =
      some ([Node.Inner (gen 0) s.length
        (Node.Leaf (s.take (BLOCK_SIZE / 2)))
        (Node.Leaf (s.drop (BLOCK_SIZE / 2)))], []) := rfl
  have ha2 : assignRoots [Node.Leaf (s.take (BLOCK_SIZE / 2)),
      Node.Leaf (s.drop (BLOCK_SIZE / 2))] ([] : List Priority) =
      some ([Node.Leaf (s.take (BLOCK_SIZE / 2)),
        Node.Leaf (s.drop (BLOCK_SIZE / 2))], []) := rfl
  have hb2 : bfsAssign [Node.Leaf (s.take (BLOCK_SIZE / 2)),
      Node.Leaf (s.drop (BLOCK_SIZE / 2))] ([] : List Priority) =
      some ([Node.Leaf (s.take (BLOCK_SIZE / 2)),
        Node.Leaf (s.drop (BLOCK_SIZE / 2))], []) := by
    rw [bfsAssign, ha2]
    show (match bfsAssign ([] : List (Node C)) ([] : List Priority) with
      | none => none
      | some (kids, ps2) =>
          some (reattach [Node.Leaf (s.take (BLOCK_SIZE / 2)),
            Node.Leaf (s.drop (BLOCK_SIZE / 2))] kids, ps2)) =
      some ([Node.Leaf (s.take (BLOCK_SIZE / 2)),
        Node.Leaf (s.drop (BLOCK_SIZE / 2))], [])
    rw [show bfsAssign ([] : List (Node C)) ([] : List Priority) =
      some ([], []) from by rw [bfsAssign]]
    rfl
  have hbfs : bfsAssign [Node.Inner 0 s.length
      (Node.Leaf (s.take (BLOCK_SIZE / 2)))
      (Node.Leaf (s.drop (BLOCK_SIZE / 2)))] [gen 0] =
      some ([Node.Inner (gen 0) s.length
        (Node.Leaf (s.take (BLOCK_SIZE / 2)))
        (Node.Leaf (s.drop (BLOCK_SIZE / 2)))], []) := by
    rw [bfsAssign, ha1]
    show (match bfsAssign [Node.Leaf (s.take (BLOCK_SIZE / 2)),
        Node.Leaf (s.drop (BLOCK_SIZE / 2))] ([] : List Priority) with
      | none => none
      | some (kids, ps2) =>
          some (reattach [Node.Inner (gen 0) s.length
            (Node.Leaf (s.take (BLOCK_SIZE / 2)))
            (Node.Leaf (s.drop (BLOCK_SIZE / 2)))] kids, ps2)) =
      some ([Node.Inner (gen 0) s.length
        (Node.Leaf (s.take (BLOCK_SIZE / 2)))
        (Node.Leaf (s.drop (BLOCK_SIZE / 2)))], [])
    rw [hb2]
    rfl
  show (match foldStack (buildStack (chunkHalf s)).1 with
    | none => some (Node.Leaf [])
    | some root =>
        match bfsAssign [root] (List.insertionSort (· ≤ ·)
            ((List.range ((buildStack (chunkHalf s)).2 - 1)).map gen)) with
        | some ([root'], _) => some root'
        | _ => none) =
    some (Node.Inner (gen 0) s.length (.Leaf (s.take (BLOCK_SIZE / 2)))
      (.Leaf (s.drop (BLOCK_SIZE / 2))))
  rw [hbs, hfs]
  show (match bfsAssign [Node.Inner 0 s.length
      (Node.Leaf (s.take (BLOCK_SIZE / 2)))
      (Node.Leaf (s.drop (BLOCK_SIZE / 2)))] [gen 0] with
    | some ([root'], _) => some root'
    | _ => none) =
    some (Node.Inner (gen 0) s.length (.Leaf (s.take (BLOCK_SIZE / 2)))
      (.Leaf (s.drop (BLOCK_SIZE / 2))))
  rw [hbfs]

theorem fromIter_range501 :
    fromIterE (List.range 501) (fun _ => 0) =
      some (Node.Inner 0 501 (.Leaf (List.range 500)) (.Leaf [500])) := by
  have h := fromIterE_two_chunks (List.range 501) (fun _ => 0)
    (by rw [List.length_range]; decide) (by rw [List.length_range]; decide)
  rw [h]
  have e1 : (List.range 501).length = 501 := List.length_range 501
  have e2 : (List.range 501).take (BLOCK_SIZE / 2) = List.range 500 := by
    rw [show BLOCK_SIZE / 2 = 500 from rfl, List.take_range,
      show (500 : Nat) ⊓ 501 = 500 from by decide]
  have e3 : (List.range 501).drop (BLOCK_SIZE / 2) = [500] := by
    rw [show BLOCK_SIZE / 2 = 500 from rfl, List.range_succ,
      List.drop_append_eq_append_drop,
      List.drop_eq_nil_of_le (by rw [List.length_range]), List.length_range]
    rfl
  rw [e1, e2, e3]

/-- Claim C2 refuted (code bug): collecting `0, ..., 500` (501 elements, two
leaf chunks) gives a treap holding the element `500` at logical position 500
(`500 < len()`), yet `get 500` descends into the left child (the source
condition `left_size >= index` holds at the block boundary) and returns
`None`, so `get`/`get_mut` fail and the `Index` operator panics on a valid
index. -/
theorem c2_get_boundary_fails :
    fromIterE (List.range 501) (fun _ => 0) =
      some (Node.Inner 0 501 (.Leaf (List.range 500)) (.Leaf [500])) ∧
    (500 : Nat) <
      (Node.Inner 0 501 (.Leaf (List.range 500)) (.Leaf [500]) :
        Node Nat).len ∧
    (Node.Inner 0 501 (.Leaf (List.range 500)) (.Leaf [500]) :
      Node Nat).toList[500]? = some 500 ∧
    (Node.Inner 0 501 (.Leaf (List.range 500)) (.Leaf [500]) :
      Node Nat).get 500 = none := by
  refine ⟨fromIter_range501, by decide, ?_, ?_⟩
  · show (List.range 500 ++ [500])[500]? = some 500
    rw [← List.range_succ]
    exact List.getElem?_range (by decide)
  · rw [show (Node.Inner 0 501 (.Leaf (List.range 500)) (.Leaf [500]) :
        Node Nat).get 500 =
      (if (Node.Leaf (List.range 500) : Node Nat).len ≥ 500 then
        (Node.Leaf (List.range 500) : Node Nat).get 500
       else (Node.Leaf ([500] : List Nat)).get
         (500 - (Node.Leaf (List.range 500) : Node Nat).len)) from rfl]
    rw [if_pos (by rw [Node.len_leaf, List.length_range])]
    show (List.range 500)[(500 : Nat)]? = none
    exact List.getElem?_eq_none (by rw [List.length_range])

set_option maxRecDepth 4000 in
/-- Claim C7 counterexample: on the publicly built treap `collect(0..=500)`,
an `insert` at index 502 (`> len() = 501`) panics in the leaf `Vec::insert`,
but the state visible at the panic has the root's cached size already
incremented to 502 — the failed insert has mutated the structure instead of
leaving it exactly as it was. -/
theorem c7_counterexample_insert_mutates :
    fromIterE (List.range 501) (fun _ => 0) =
      some (Node.Inner 0 501 (.Leaf (List.range 500)) (.Leaf [500])) ∧
    (Node.Inner 0 501 (.Leaf (List.range 500)) (.Leaf [500]) :
        Node Nat).len < 502 ∧
    (Node.Inner 0 501 (.Leaf (List.range 500)) (.Leaf [500]) :
        Node Nat).insertE 502 0 0 =
      .error (Node.Inner 0 502 (.Leaf (List.range 500)) (.Leaf [500])) ∧
    (Node.Inner 0 502 (.Leaf (List.range 500)) (.Leaf [500]) : Node Nat) ≠
      Node.Inner 0 501 (.Leaf (List.range 500)) (.Leaf [500]) := by
  refine ⟨fromIter_range501, by decide, ?_, ?_⟩
  · rfl
  · intro hcontra
    have h1 := congrArg Node.len hcontra
    simp only [Node.len_inner] at h1
    exact absurd h1 (by decide)

/-- Claim C7 (amended): for every size-consistent treap, `get`/`get_mut` with
`i ≥ len()` fail observably (they return `None`, so the `Index` operators
panic) and, being read-only, leave the treap unchanged; an `insert` with
`i > len()` also fails observably (a panic), but it does not restore the
previous state — the cached sizes along its descent path remain
incremented. -/
theorem c7_out_of_range_amended {C : Type} (t : Node C) (i : Nat) (v : C)
    (p : Priority) (hsz : t.sizeValid = true) :
    (t.len ≤ i → t.get i = none) ∧
    (t.len < i → ∃ e, t.insertE i v p = .error e) :=
  ⟨fun h => Node.get_none_of_le t i hsz h,
   fun h => Node.insertE_oob t i v p hsz h⟩

/-- Witness for the amended C7 on a one-element leaf treap at index 5. -/
theorem c7_out_of_range_amended_witness :
    Node.sizeValid (Node.Leaf ([3] : List Nat)) = true ∧
      (((Node.Leaf ([3] : List Nat)).len ≤ 5 →
          (Node.Leaf ([3] : List Nat)).get 5 = none) ∧
        ((Node.Leaf ([3] : List Nat)).len < 5 →
          ∃ e, (Node.Leaf ([3] : List Nat)).insertE 5 0 0 = .error e)) :=
  ⟨by decide, c7_out_of_range_amended (Node.Leaf [3]) 5 0 0 (by decide)⟩
